import Mathlib

/-!
Shallow embedding of the corpus-queue core of the healer fuzzer
(source file: src/fuzz/queue.rs).

Modelling conventions:
* Machine integers (usize) are modelled as Nat.  None of the embedded
  arithmetic can overflow a u64 in a way the claims depend on, and all
  source arithmetic on these values is plain addition/subtraction/division.
* Syscall references (SyscallRef) are modelled as Nat identifiers; the
  call-count table (FxHashMap<SyscallRef, usize>) is modelled as the
  function Nat -> Nat it represents.
* Branch identifiers are Nat; FxHashSet<u32> of branches is a Finset Nat.
* Randomness: every call the source makes into the rand crate is given an
  explicit oracle argument.  A roll oracle models gen_range(1..=100); a
  pick oracle seeds a weighted or uniform choice.  SliceRandom::choose
  over a slice is modelled by indexing with seed % length (None on an
  empty slice, exactly as in rand).  choose_weighted/choose_weighted_mut
  are modelled by cumulative-weight search over seed % total, which
  returns none exactly when rand returns Err: on an empty slice or when
  the total weight is zero (WeightedError::NoItem / AllWeightsZero).
  random::<bool>() in culling is an oracle Nat -> Bool indexed by the
  walk position of the input that consumes it; shuffle is an arbitrary
  function parameter (constrained to be a permutation where a claim
  needs it).
* A Rust panic (an .unwrap() of Err/None, or an integer division by
  zero) is modelled by the Option value none; fallible operations
  therefore return Option.
* Wall-clock time: Instant::now() - last_culling is passed in as an
  explicit elapsed argument (Nat), compared against culling_duration.
* The optional stats handle only stores numbers into an external sink
  and never changes queue state; it is omitted, as is the on-disk dump
  (best-effort persistence that does not affect in-memory state).
* Input::update_distinct_degree and Input::update_score live in
  src/fuzz/input.rs, which is not part of the sources given; they are
  modelled as explicit function parameters (dd, sc) that overwrite only
  the distinct_degree / score field, which is exactly the access the
  queue code grants them (&mut self plus a read-only table).
-/

namespace Healer

/-- Execution information of one call of an input's program: the branch
identifiers it covered (exec info Vec's branches field). -/
structure CallInfo where
  branches : List ℕ
deriving DecidableEq

/-- One accepted test case (src/fuzz/input.rs, fields as used by queue.rs).
p_calls lists the syscall identifiers of the program's calls. -/
structure Input where
  p_calls : List ℕ
  len : ℕ
  sz : ℕ
  depth : ℕ
  exec_tm : ℕ
  res_cnt : ℕ
  age : ℕ
  score : ℕ
  gaining_rate : ℕ
  distinct_degree : ℕ
  favored : Bool
  found_new_re : Bool
  self_contained : Bool
  was_mutated : Bool
  info : List CallInfo
  new_cov : Finset ℕ
deriving DecidableEq

/-- Rolling-average table of the queue (the avgs FxHashMap keyed by the
AVG_* iota constants; the key set is fixed, so a structure is used). -/
structure Avgs where
  gaining_rate : ℕ
  distinct_degree : ℕ
  depth : ℕ
  sz : ℕ
  age : ℕ
  exec_tm : ℕ
  res_cnt : ℕ
  new_cov : ℕ
  len : ℕ
  score : ℕ
deriving DecidableEq

/-- Avgs table with every entry zero (the fxhashmap literal in Queue::new
and at the start of culling). -/
def Avgs.zero : Avgs :=
  { gaining_rate := 0, distinct_degree := 0, depth := 0, sz := 0, age := 0
  , exec_tm := 0, res_cnt := 0, new_cov := 0, len := 0, score := 0 }

/-- The corpus queue (struct Queue).  last_culling is represented
implicitly: the elapsed time since it is an explicit argument where the
source subtracts Instant::now(). -/
structure Queue where
  id : ℕ
  inputs : List Input
  current : ℕ
  last_num : ℕ
  culling_threshold : ℕ
  culling_duration : ℕ
  favored : List ℕ
  pending_favored : List ℕ
  pending_none_favored : List ℕ
  found_re : List ℕ
  pending_found_re : List ℕ
  self_contained : List ℕ
  score_sheet : List (ℕ × ℕ)
  min_score : ℕ × ℕ
  input_depth : List (List ℕ)
  current_age : ℕ
  avgs : Avgs
  call_cnt : ℕ → ℕ
  queue_dir : Option String

/-- Queue::new(id, queue_dir): the empty queue.  usize::MAX of min_score
is 2^64 - 1. -/
def Queue.new (id : ℕ) (queue_dir : Option String) : Queue :=
  { id := id
  , inputs := []
  , current := 0
  , last_num := 0
  , culling_threshold := 128
  , culling_duration := 15 * 60
  , favored := []
  , pending_favored := []
  , pending_none_favored := []
  , found_re := []
  , pending_found_re := []
  , self_contained := []
  , score_sheet := []
  , min_score := (2 ^ 64 - 1, 0)
  , input_depth := []
  , current_age := 0
  , avgs := Avgs.zero
  , call_cnt := fun _ => 0
  , queue_dir := queue_dir }

/-- Queue::load: in-place resume is unimplemented and always errors. -/
def Queue.load (_id : ℕ) (f : String) : Except String Queue :=
  Except.error
    ("In-place resume not implemented for queue, please remove old data " ++ f ++ " first")

/-- Queue::with_workdir(id, work_dir).  The filesystem is abstracted by
the predicate ex telling whether a path exists. -/
def Queue.with_workdir (ex : String → Bool) (id : ℕ) (work_dir : String) :
    Except String Queue :=
  let queue_dir := work_dir ++ "/queue-" ++ toString id
  if ex queue_dir then Queue.load id work_dir
  else Except.ok (Queue.new id (some queue_dir))

/-- Queue::is_empty. -/
def Queue.isEmptyQ (q : Queue) : Bool := q.inputs.isEmpty

/-- Queue::len. -/
def Queue.lenQ (q : Queue) : ℕ := q.inputs.length

/-- Score of inputs[i] as read by the weight closures; out-of-range reads
cannot occur under the queue invariants the theorems assume (Rust would
panic there), and are given weight 0. -/
def scoreAt (inputs : List Input) (i : ℕ) : ℕ :=
  ((inputs.get? i).map Input.score).getD 0

/-- Cumulative-weight search of rand's WeightedIndex sampling: given the
remaining roll r, return the index of the first weight bucket containing
it.  none when the list is exhausted. -/
def pickIdx : ℕ → List ℕ → Option ℕ
  | _, [] => none
  | r, w :: ws => if r < w then some 0 else (pickIdx (r - w) ws).map (· + 1)

/-- Model of SliceRandom::choose_weighted over list l with weight
function w and oracle seed.  Returns none exactly when rand returns Err:
empty slice or all weights zero. -/
def chooseWeighted (seed : ℕ) (l : List α) (w : α → ℕ) : Option α :=
  if (l.map w).sum = 0 then none
  else match pickIdx (seed % (l.map w).sum) (l.map w) with
    | none => none
    | some j => l.get? j

/-- Model of SliceRandom::choose over list l: none on an empty slice. -/
def chooseUniform (seed : ℕ) (l : List α) : Option α :=
  l.get? (seed % l.length)

/-- Replacement of the element at position i by f of it (the effect of a
Rust in-place update of a Vec element, such as
inputs[idx].was_mutated = true or input_depth[depth].push(idx)). -/
def modifyAt (l : List α) (i : ℕ) (f : α → α) : List α :=
  match l, i with
  | [], _ => []
  | a :: rest, 0 => f a :: rest
  | a :: rest, n + 1 => a :: modifyAt rest n f

/-- Queue::choose_weighted(f, inputs, to_mutate): weighted pick from the
pending set f by the inputs' scores; on to_mutate, the picked index is
removed from f (Vec::remove at its first position) and its input marked
was_mutated.  none models the .unwrap() panic of a failed choice. -/
def Queue.choose_weighted (seed : ℕ) (f : List ℕ) (inputs : List Input)
    (to_mutate : Bool) : Option (List ℕ × List Input × ℕ) :=
  match chooseWeighted seed f (scoreAt inputs) with
  | none => none
  | some idx =>
    if to_mutate then
      some (f.erase idx, modifyAt inputs idx (fun i => { i with was_mutated := true }), idx)
    else
      some (f, inputs, idx)

/-- Oracle for one call of Queue::select_idx: one gen_range(1..=100) roll
per tier, one pick seed per tier's choice, and the random window start of
the score-sheet tier. -/
structure SelOracle where
  roll1 : ℕ
  roll2 : ℕ
  roll3 : ℕ
  roll4 : ℕ
  roll5 : ℕ
  roll6 : ℕ
  roll7 : ℕ
  roll8 : ℕ
  pick1 : ℕ
  pick2 : ℕ
  pick3 : ℕ
  pick4 : ℕ
  pick5 : ℕ
  pick6 : ℕ
  pick7 : ℕ
  pick8 : ℕ
  start7 : ℕ
  pickF : ℕ
deriving DecidableEq

/-- Window of Queue::select_idx's age-weighted tier: the slice
score_sheet[start..end] with start random below len - 8 when the corpus
is larger than the window, else the whole sheet (end = inputs.len()). -/
def tier7Window (q : Queue) (start7 : ℕ) : List (ℕ × ℕ) :=
  if 8 < q.inputs.length then
    let start := start7 % (q.inputs.length - 8)
    (q.score_sheet.drop start).take 8
  else
    q.score_sheet.take q.inputs.length

/-- Final fallback tier of Queue::select_idx (the select weighted block):
an 8-wide window of indices at the rotating cursor, cursor advanced by
one with wrap-around, weighted choice by score.  none models the
.unwrap() panic when the window's weights are all zero or the window is
empty. -/
def Queue.select_fallback (o : SelOracle) (q : Queue) : Option (Queue × ℕ) :=
  match chooseWeighted o.pickF
      (List.range' q.current (min (q.current + 8) q.inputs.length - q.current))
      (scoreAt q.inputs) with
  | none => none
  | some i =>
    some ({ q with current :=
              if q.inputs.length ≤ q.current + 1 then 0 else q.current + 1 }, i)

/-- Queue::select_idx(to_mutate), the nine-tier selection cascade.  The
returned queue carries the state mutations (pending-set consumption and
the fallback cursor); none models a panic (an .unwrap() of a failed
choice). -/
def Queue.select_idx (o : SelOracle) (to_mutate : Bool) (q : Queue) :
    Option (Queue × ℕ) :=
  if q.pending_favored ≠ [] ∧ o.roll1 ≤ 90 then
    match Queue.choose_weighted o.pick1 q.pending_favored q.inputs to_mutate with
    | none => none
    | some (f, inputs, idx) =>
      some ({ q with pending_favored := f, inputs := inputs }, idx)
  else if q.pending_found_re ≠ [] ∧ o.roll2 ≤ 60 then
    match Queue.choose_weighted o.pick2 q.pending_found_re q.inputs to_mutate with
    | none => none
    | some (f, inputs, idx) =>
      some ({ q with pending_found_re := f, inputs := inputs }, idx)
  else if q.pending_none_favored ≠ [] ∧ o.roll3 < 30 then
    match Queue.choose_weighted o.pick3 q.pending_none_favored q.inputs to_mutate with
    | none => none
    | some (f, inputs, idx) =>
      some ({ q with pending_none_favored := f, inputs := inputs }, idx)
  else if q.favored ≠ [] ∧ o.roll4 ≤ 50 then
    (chooseUniform o.pick4 q.favored).map (fun i => (q, i))
  else if q.found_re ≠ [] ∧ o.roll5 ≤ 30 then
    (chooseUniform o.pick5 q.found_re).map (fun i => (q, i))
  else if q.self_contained ≠ [] ∧ o.roll6 ≤ 10 then
    (chooseUniform o.pick6 q.self_contained).map (fun i => (q, i))
  else if 1 ≤ q.current_age ∧ o.roll7 ≤ 10 then
    match chooseWeighted o.pick7 (tier7Window q o.start7) (fun p => p.1) with
    | some p => some (q, p.2)
    | none => Queue.select_fallback o q
  else if o.roll8 ≤ 2 then
    match q.input_depth.getLast? with
    | none => none
    | some bucket => (chooseUniform o.pick8 bucket).map (fun i => (q, i))
  else
    Queue.select_fallback o q

/-- Update of the call-count table by the calls of one program (the for
loop incrementing call_cnt entries in Queue::append, and the inner loop
of the rebuild in Queue::culling). -/
def addCalls (cc : ℕ → ℕ) (calls : List ℕ) : ℕ → ℕ :=
  calls.foldl (fun cc c => fun x => if x = c then cc x + 1 else cc x) cc

/-- Growth of the per-depth bucket list: while depth >= buckets.len(),
push an empty bucket — in closed form, append exactly the missing number
of empty buckets so the list covers index depth. -/
def growDepth (buckets : List (List ℕ)) (depth : ℕ) : List (List ℕ) :=
  buckets ++ List.replicate (depth + 1 - buckets.length) []

/-- Queue::append_inner(inp, idx): classify idx into the side-sets by
inp's flags, extend score sheet, min score and depth buckets, and push
the input. -/
def Queue.append_inner (q : Queue) (inp : Input) (idx : ℕ) : Queue :=
  let q :=
    if inp.favored then
      { q with favored := q.favored ++ [idx]
             , pending_favored :=
                 if !inp.was_mutated then q.pending_favored ++ [idx]
                 else q.pending_favored }
    else if !inp.was_mutated then
      { q with pending_none_favored := q.pending_none_favored ++ [idx] }
    else q
  let q :=
    if inp.found_new_re then
      { q with found_re := q.found_re ++ [idx]
             , pending_found_re :=
                 if !inp.was_mutated then q.pending_found_re ++ [idx]
                 else q.pending_found_re }
    else q
  let q :=
    if inp.self_contained then
      { q with self_contained := q.self_contained ++ [idx] }
    else q
  let q := { q with score_sheet := q.score_sheet ++ [(inp.score, idx)] }
  let q := if inp.score < q.min_score.1 then { q with min_score := (inp.score, idx) } else q
  let q := { q with input_depth :=
               modifyAt (growDepth q.input_depth inp.depth) inp.depth (fun b => b ++ [idx]) }
  { q with inputs := q.inputs ++ [inp] }

/-- Preparation of an input in Queue::append before classification: stamp
age with the current culling generation, update the call-count table,
then recompute distinct_degree (from the updated table) and score (from
the queue's rolling averages). -/
def prepInput (dd : (ℕ → ℕ) → Input → ℕ) (sc : Avgs → Input → ℕ)
    (q : Queue) (inp : Input) : Input × (ℕ → ℕ) :=
  let inp := { inp with age := q.current_age }
  let cc := addCalls q.call_cnt inp.p_calls
  let inp := { inp with distinct_degree := dd cc inp }
  let inp := { inp with score := sc q.avgs inp }
  (inp, cc)

/-- Culling-free body of Queue::append (everything before the
should_culling check; the stats stores do not touch queue state). -/
def Queue.appendCore (dd : (ℕ → ℕ) → Input → ℕ) (sc : Avgs → Input → ℕ)
    (q : Queue) (inp : Input) : Queue :=
  let idx := q.inputs.length
  let p := prepInput dd sc q inp
  Queue.append_inner { q with call_cnt := p.2 } p.1 idx

/-- Queue::should_culling, with the wall-clock delta since the last
culling passed in as elapsed. -/
def Queue.should_culling (q : Queue) (elapsed : ℕ) : Bool :=
  let culling :=
    if q.last_num < q.inputs.length then
      decide (q.culling_threshold < q.inputs.length - q.last_num)
    else false
  culling || decide (q.culling_duration < elapsed)

/-- Descending (len, score) order of the sort_unstable_by call at the
start of Queue::culling: a precedes b when a.len > b.len, ties broken by
a.score >= b.score. -/
def cullLe (a b : Input) : Bool :=
  b.len < a.len || (a.len == b.len && b.score ≤ a.score)

/-- Insertion of an input into a list sorted by cullLe.  Rust's
sort_unstable_by fixes no order among equal keys, so any correct sort
for the comparator models it; insertion sort is structural, which keeps
the whole culling pass computable by the kernel. -/
def insertSorted (a : Input) : List Input → List Input
  | [] => [a]
  | b :: rest => if cullLe a b then a :: b :: rest else b :: insertSorted a rest

/-- The sort_unstable_by call of Queue::culling: descending (len, score)
order of all current inputs. -/
def sortInputs (l : List Input) : List Input :=
  l.foldr insertSorted []

/-- Single branch step of the culling merge: cov.insert(br) marking the
input favored and recording br as new coverage when br was absent.  The
state is (cov, favored, new_cov). -/
def insertBr (acc : Finset ℕ × Bool × Finset ℕ) (br : ℕ) : Finset ℕ × Bool × Finset ℕ :=
  if br ∈ acc.1 then acc else (insert br acc.1, true, insert br acc.2.2)

/-- Merge of one input's branches into the running coverage set (the
nested for info / for br loops of Queue::culling). -/
def mergeInput (cov : Finset ℕ) (i : Input) : Finset ℕ × Bool × Finset ℕ :=
  i.info.foldl (fun acc ci => ci.branches.foldl insertBr acc) (cov, false, ∅)

/-- Walk-and-discard loop of Queue::culling over the sorted inputs: merge
branches, then drop a non-favored input of len <= 2 when its coin says
so (random::<bool>()), else record new_cov / favored and bump age.  The
coin oracle is indexed by the walk position k. -/
def cullLoop (coins : ℕ → Bool) : ℕ → Finset ℕ → List Input → List Input
  | _, _, [] => []
  | k, cov, i :: rest =>
    let m := mergeInput cov i
    if !m.2.1 && decide (i.len ≤ 2) && coins k then
      cullLoop coins (k + 1) m.1 rest
    else
      { i with new_cov := m.2.2, favored := m.2.1, age := i.age + 1 }
        :: cullLoop coins (k + 1) m.1 rest

/-- Rebuild of the call-count table from the retained inputs in
Queue::culling. -/
def buildCallCnt (l : List Input) : ℕ → ℕ :=
  l.foldl (fun cc i => addCalls cc i.p_calls) (fun _ => 0)

/-- One step of the iter_mut loop of Queue::culling: recompute the
input's distinct_degree from the rebuilt table, then accumulate every
averaged metric. -/
def ddAvgStep (dd : (ℕ → ℕ) → Input → ℕ) (cc : ℕ → ℕ)
    (acc : Avgs × List Input) (i : Input) : Avgs × List Input :=
  let i := { i with distinct_degree := dd cc i }
  let a := acc.1
  ({ a with
      gaining_rate := a.gaining_rate + i.gaining_rate,
      distinct_degree := a.distinct_degree + i.distinct_degree,
      age := a.age + i.age,
      sz := a.sz + i.sz,
      depth := a.depth + i.depth,
      len := a.len + i.len,
      exec_tm := a.exec_tm + i.exec_tm,
      res_cnt := a.res_cnt + i.res_cnt,
      new_cov := a.new_cov + i.new_cov.card },
    acc.2 ++ [i])

/-- The iter_mut loop of Queue::culling (distinct-degree recompute plus
metric accumulation). -/
def ddAvgLoop (dd : (ℕ → ℕ) → Input → ℕ) (cc : ℕ → ℕ) (l : List Input) :
    Avgs × List Input :=
  l.foldl (ddAvgStep dd cc) (Avgs.zero, [])

/-- Ceiling division: the exact value of (a as f64 / b as f64).ceil() as
usize for every sum a below 2^53 (the f64 quotient then deviates from
a/b by less than 1/b, so its ceiling is the exact rational ceiling); the
b = 0 case gives 0 just as NaN as usize does, and is only reached with
a = 0. -/
def ceilDiv (a b : ℕ) : ℕ := (a + b - 1) / b

/-- The avgs.iter_mut().for_each division in Queue::culling: each of the
nine accumulated sums becomes its ceiling average over n.  The score
entry is absent from the map at this point (kept 0 here, inserted
later). -/
def ceilAvgs (a : Avgs) (n : ℕ) : Avgs :=
  { gaining_rate := ceilDiv a.gaining_rate n
  , distinct_degree := ceilDiv a.distinct_degree n
  , depth := ceilDiv a.depth n
  , sz := ceilDiv a.sz n
  , age := ceilDiv a.age n
  , exec_tm := ceilDiv a.exec_tm n
  , res_cnt := ceilDiv a.res_cnt n
  , new_cov := ceilDiv a.new_cov n
  , len := ceilDiv a.len n
  , score := a.score }

/-- One step of the final rebuild loop of Queue::culling: recompute the
input's score from the fresh averages, accumulate the score total, and
re-append through append_inner at the next index. -/
def cullAppendStep (sc : Avgs → Input → ℕ) (avgs : Avgs)
    (acc : Queue × ℕ) (i : Input) : Queue × ℕ :=
  let i := { i with score := sc avgs i }
  (Queue.append_inner acc.1 i acc.1.inputs.length, acc.2 + i.score)

/-- The final rebuild loop of Queue::culling over the prepared inputs. -/
def cullAppendLoop (sc : Avgs → Input → ℕ) (avgs : Avgs)
    (q : Queue) (l : List Input) : Queue × ℕ :=
  l.foldl (cullAppendStep sc avgs) (q, 0)

/-- Retained inputs of Queue::culling: the walk/merge/discard loop over
the corpus sorted descending by (len, score), ownership set seeded
empty. -/
def cullRetained (coins : ℕ → Bool) (q : Queue) : List Input :=
  cullLoop coins 0 ∅ (sortInputs q.inputs)

/-- The retained inputs after the shuffle of Queue::culling. -/
def cullShuffled (coins : ℕ → Bool) (shuffle : List Input → List Input) (q : Queue) :
    List Input :=
  shuffle (cullRetained coins q)

/-- The call-count table rebuilt from the retained set in
Queue::culling. -/
def cullCallCnt (coins : ℕ → Bool) (shuffle : List Input → List Input) (q : Queue) :
    ℕ → ℕ :=
  buildCallCnt (cullShuffled coins shuffle q)

/-- Metric sums accumulated by the iter_mut loop of Queue::culling. -/
def cullSums (dd : (ℕ → ℕ) → Input → ℕ) (coins : ℕ → Bool)
    (shuffle : List Input → List Input) (q : Queue) : Avgs :=
  (ddAvgLoop dd (cullCallCnt coins shuffle q) (cullShuffled coins shuffle q)).1

/-- Retained inputs with distinct_degree recomputed from the rebuilt
table (the in-place updates of the iter_mut loop of Queue::culling). -/
def cullPrepared (dd : (ℕ → ℕ) → Input → ℕ) (coins : ℕ → Bool)
    (shuffle : List Input → List Input) (q : Queue) : List Input :=
  (ddAvgLoop dd (cullCallCnt coins shuffle q) (cullShuffled coins shuffle q)).2

/-- The ceiling-average table of Queue::culling (score entry still
absent, inserted after the rebuild loop). -/
def cullAvgsOf (dd : (ℕ → ℕ) → Input → ℕ) (coins : ℕ → Bool)
    (shuffle : List Input → List Input) (q : Queue) : Avgs :=
  ceilAvgs (cullSums dd coins shuffle q) (cullPrepared dd coins shuffle q).length

/-- The fresh successor queue of Queue::culling before re-appending:
new culling generation, last_num = pre-discard corpus size, timers
reset, same thresholds, rebuilt call counts. -/
def cullBaseQueue (coins : ℕ → Bool) (shuffle : List Input → List Input) (q : Queue) :
    Queue :=
  { Queue.new q.id q.queue_dir with
      call_cnt := cullCallCnt coins shuffle q
    , current_age := q.current_age + 1
    , last_num := (sortInputs q.inputs).length
    , culling_threshold := q.culling_threshold
    , culling_duration := q.culling_duration }

/-- The rebuild loop of Queue::culling: rescore and re-append every
prepared input, accumulating the score total. -/
def cullFinal (dd : (ℕ → ℕ) → Input → ℕ) (sc : Avgs → Input → ℕ)
    (coins : ℕ → Bool) (shuffle : List Input → List Input) (q : Queue) : Queue × ℕ :=
  cullAppendLoop sc (cullAvgsOf dd coins shuffle q) (cullBaseQueue coins shuffle q)
    (cullPrepared dd coins shuffle q)

/-- Queue::culling: sort descending by (len, score), walk/merge/discard,
shuffle the retained inputs, rebuild the call-count table, recompute
distinct degrees and ceiling averages, and rebuild a successor queue
through append_inner with rescored inputs.  The final average-score
entry divides by the new corpus size; none models the division-by-zero
panic when every input was discarded. -/
def Queue.culling (dd : (ℕ → ℕ) → Input → ℕ) (sc : Avgs → Input → ℕ)
    (coins : ℕ → Bool) (shuffle : List Input → List Input) (q : Queue) :
    Option Queue :=
  if (cullFinal dd sc coins shuffle q).1.inputs.length = 0 then none
  else
    some { (cullFinal dd sc coins shuffle q).1 with
            avgs := { cullAvgsOf dd coins shuffle q with
                        score := (cullFinal dd sc coins shuffle q).2
                          / (cullFinal dd sc coins shuffle q).1.inputs.length } }

/-- Queue::append(inp): prepare and classify the input, then cull when
should_culling fires.  none models a panic inside the triggered
culling. -/
def Queue.append (dd : (ℕ → ℕ) → Input → ℕ) (sc : Avgs → Input → ℕ)
    (coins : ℕ → Bool) (shuffle : List Input → List Input)
    (elapsed : ℕ) (q : Queue) (inp : Input) : Option Queue :=
  let q := Queue.appendCore dd sc q inp
  if Queue.should_culling q elapsed then Queue.culling dd sc coins shuffle q
  else some q

/-- Sequence of appends (the way a worker grows its queue). -/
def Queue.appendN (dd : (ℕ → ℕ) → Input → ℕ) (sc : Avgs → Input → ℕ)
    (coins : ℕ → Bool) (shuffle : List Input → List Input)
    (elapsed : ℕ) (q : Queue) (l : List Input) : Option Queue :=
  l.foldlM (fun q i => Queue.append dd sc coins shuffle elapsed q i) q

/-- Sequence of culling-free append cores (used to name the intermediate
states of an append sequence that never triggers culling). -/
def Queue.iterCore (dd : (ℕ → ℕ) → Input → ℕ) (sc : Avgs → Input → ℕ)
    (q : Queue) (l : List Input) : Queue :=
  l.foldl (Queue.appendCore dd sc) q

/-- Specification-side restatement of the selection policy, following the
spec's tier list word for word: nine tiers in fixed order, each firing
only if its candidate set is non-empty and its own roll satisfies its
boundary (<=90, <=60, <30, <=50, <=30, <=10, <=10 with at least one past
culling, <=2), with the round-robin weighted window as final fallback.
The per-tier selection mechanics are those of the code. -/
def selectTiersSpec (o : SelOracle) (to_mutate : Bool) (q : Queue) :
    Option (Queue × ℕ) :=
  if q.pending_favored ≠ [] ∧ o.roll1 ≤ 90 then
    match Queue.choose_weighted o.pick1 q.pending_favored q.inputs to_mutate with
    | none => none
    | some (f, inputs, idx) =>
      some ({ q with pending_favored := f, inputs := inputs }, idx)
  else if q.pending_found_re ≠ [] ∧ o.roll2 ≤ 60 then
    match Queue.choose_weighted o.pick2 q.pending_found_re q.inputs to_mutate with
    | none => none
    | some (f, inputs, idx) =>
      some ({ q with pending_found_re := f, inputs := inputs }, idx)
  else if q.pending_none_favored ≠ [] ∧ o.roll3 < 30 then
    match Queue.choose_weighted o.pick3 q.pending_none_favored q.inputs to_mutate with
    | none => none
    | some (f, inputs, idx) =>
      some ({ q with pending_none_favored := f, inputs := inputs }, idx)
  else if q.favored ≠ [] ∧ o.roll4 ≤ 50 then
    (chooseUniform o.pick4 q.favored).map (fun i => (q, i))
  else if q.found_re ≠ [] ∧ o.roll5 ≤ 30 then
    (chooseUniform o.pick5 q.found_re).map (fun i => (q, i))
  else if q.self_contained ≠ [] ∧ o.roll6 ≤ 10 then
    (chooseUniform o.pick6 q.self_contained).map (fun i => (q, i))
  else if tier7Window q o.start7 ≠ [] ∧ 1 ≤ q.current_age ∧ o.roll7 ≤ 10 then
    (chooseWeighted o.pick7 (tier7Window q o.start7) (fun p => p.1)).map
      (fun p => (q, p.2))
  else if q.input_depth.getLast?.getD [] ≠ [] ∧ o.roll8 ≤ 2 then
    (chooseUniform o.pick8 (q.input_depth.getLast?.getD [])).map (fun i => (q, i))
  else
    Queue.select_fallback o q

/-- Union of the branches of a list of execution infos. -/
def infosBr (infos : List CallInfo) : Finset ℕ :=
  infos.foldl (fun s ci => s ∪ ci.branches.toFinset) ∅

/-- All branches covered by an input's recorded execution info. -/
def inputBranches (i : Input) : Finset ℕ :=
  infosBr i.info

/-- Specification-side culling walk: each input's new-coverage
contribution is exactly its branches minus everything earlier inputs
contributed, and it is favored exactly when that contribution is
non-empty. -/
def cullWalkSpec (cov : Finset ℕ) : List Input → List (Input × Bool × Finset ℕ)
  | [] => []
  | i :: rest =>
    let nc := inputBranches i \ cov
    (i, decide (nc ≠ ∅), nc) :: cullWalkSpec (cov ∪ inputBranches i) rest

/-- Prefix union of branch sets of the first j inputs of a walk list. -/
def prefixBr (l : List Input) (j : ℕ) : Finset ℕ :=
  (l.take j).foldl (fun s i => s ∪ inputBranches i) ∅

/-- Specification-side retention: a walked input is retained exactly when
it is favored, or longer than 2, or its own coin (indexed by its walk
position) says keep; retained inputs carry their new coverage, favored
mark, and age incremented by one. -/
def cullRetainSpec (coins : ℕ → Bool) (k : ℕ) (cov : Finset ℕ) (l : List Input) :
    List Input :=
  (((cullWalkSpec cov l).enumFrom k).filter
      (fun p => p.2.2.1 || decide (2 < p.2.1.len) || !coins p.1)).map
    (fun p => { p.2.1 with new_cov := p.2.2.2, favored := p.2.2.1, age := p.2.1.age + 1 })

section Fixtures

/-- Baseline concrete input for witnesses. -/
def wInput : Input :=
  { p_calls := [0]
  , len := 3
  , sz := 3
  , depth := 0
  , exec_tm := 1
  , res_cnt := 0
  , age := 0
  , score := 1
  , gaining_rate := 1
  , distinct_degree := 1
  , favored := false
  , found_new_re := false
  , self_contained := false
  , was_mutated := false
  , info := [{ branches := [1] }]
  , new_cov := ∅ }

/-- Oracle whose rolls all miss every tier (all rolls 100). -/
def wOracle : SelOracle :=
  { roll1 := 100, roll2 := 100, roll3 := 100, roll4 := 100
  , roll5 := 100, roll6 := 100, roll7 := 100, roll8 := 100
  , pick1 := 0, pick2 := 0, pick3 := 0, pick4 := 0
  , pick5 := 0, pick6 := 0, pick7 := 0, pick8 := 0
  , start7 := 0, pickF := 0 }

/-- Concrete one-input queue in a consistent state for witnesses. -/
def wQueue : Queue :=
  { Queue.new 0 none with
      inputs := [wInput]
    , score_sheet := [(1, 0)]
    , input_depth := [[0]] }

/-- Trivial distinct-degree recompute used to instantiate the abstract
update in witnesses. -/
def wDD : (ℕ → ℕ) → Input → ℕ := fun _ i => i.distinct_degree

/-- Trivial score recompute used to instantiate the abstract update in
witnesses. -/
def wSC : Avgs → Input → ℕ := fun _ i => i.score

/-- Coin oracle that always discards. -/
def wCoinsT : ℕ → Bool := fun _ => true

/-- Input with score zero and no coverage. -/
def wInputZ : Input := { wInput with score := 0, info := [] }

/-- Queue whose single input has score zero and sits in pending_favored:
the pending tier's weighted choice then has no positive weight. -/
def wQueueZ : Queue :=
  { Queue.new 0 none with
      inputs := [wInputZ]
    , pending_favored := [0]
    , score_sheet := [(0, 0)]
    , input_depth := [[0]] }

/-- Oracle whose first roll fires the pending-favored tier. -/
def wOracleZ : SelOracle := { wOracle with roll1 := 1 }

/-- Queue whose single zero-score input sits in pending_found_re. -/
def wQueueZ2 : Queue :=
  { Queue.new 0 none with
      inputs := [wInputZ]
    , pending_found_re := [0]
    , score_sheet := [(0, 0)]
    , input_depth := [[0]] }

/-- Oracle whose second roll fires the pending-found-new-re tier. -/
def wOracleZ2 : SelOracle := { wOracle with roll2 := 1 }

/-- Queue whose single zero-score input sits in pending_none_favored. -/
def wQueueZ3 : Queue :=
  { Queue.new 0 none with
      inputs := [wInputZ]
    , pending_none_favored := [0]
    , score_sheet := [(0, 0)]
    , input_depth := [[0]] }

/-- Oracle whose third roll fires the pending-non-favored tier. -/
def wOracleZ3 : SelOracle := { wOracle with roll3 := 1 }

/-- Queue with one positive-score input but an all-zero score sheet and
at least one culling behind it: the age-weighted window tier fires with
an all-zero-weight window. -/
def wQueueW : Queue :=
  { Queue.new 0 none with
      inputs := [{ wInput with score := 5 }]
    , score_sheet := [(0, 0)]
    , input_depth := [[0]]
    , current_age := 1 }

/-- Oracle whose seventh roll fires the age-weighted window tier. -/
def wOracleW : SelOracle := { wOracle with roll7 := 1 }

/-- Consistent one-input queue whose input is queued in
pending_favored. -/
def wQueueP : Queue := { wQueue with pending_favored := [0] }

/-- Input A of the coverage-merge instance: length 5, branches 1 and 2. -/
def wInputA : Input := { wInput with len := 5, info := [{ branches := [1, 2] }] }

/-- Input B of the coverage-merge instance: length 3, branches 2 and 3. -/
def wInputB : Input := { wInput with len := 3, info := [{ branches := [2, 3] }] }

/-- Queue holding B then A, so that the culling sort walks A first. -/
def wQueueAB : Queue :=
  { Queue.new 0 none with
      inputs := [wInputB, wInputA]
    , score_sheet := [(1, 0), (1, 1)]
    , input_depth := [[0, 1]] }

/-- Branch-free input of length 1 (a culling discard candidate). -/
def wInputSmall : Input := { wInput with len := 1, info := [] }

/-- Queue holding only the branch-free length-1 input. -/
def wQueueSmall : Queue :=
  { Queue.new 0 none with
      inputs := [wInputSmall]
    , score_sheet := [(1, 0)]
    , input_depth := [[0]] }

/-- Fresh queue with culling threshold zero (every append triggers). -/
def wQ4 : Queue := { Queue.new 0 none with culling_threshold := 0 }

/-- State of wQueueP after a consuming pending-favored selection. -/
def wSelResQ : Queue :=
  { wQueueP with
      pending_favored := ([0] : List ℕ).erase 0
    , inputs := modifyAt wQueueP.inputs 0 (fun i => { i with was_mutated := true }) }

end Fixtures

section Lemmas

/-- The cumulative-weight search succeeds whenever the roll is below the
total weight, and lands inside the list. -/
theorem pickIdx_isSome {ws : List ℕ} {r : ℕ} (h : r < ws.sum) :
    ∃ j, pickIdx r ws = some j ∧ j < ws.length := by
  induction ws generalizing r with
  | nil => simp at h
  | cons w ws ih =>
    by_cases hw : r < w
    · exact ⟨0, by simp [pickIdx, hw], by simp⟩
    · push_neg at hw
      have : r - w < ws.sum := by simp [List.sum_cons] at h; omega
      obtain ⟨j, hj, hjl⟩ := ih this
      exact ⟨j + 1, by simp [pickIdx, not_lt.mpr hw, hj], by simpa using hjl⟩

/-- choose_weighted succeeds on a non-empty list of positive weights, and
returns an element of the list. -/
theorem chooseWeighted_isSome {l : List α} (w : α → ℕ) (s : ℕ)
    (hne : l ≠ []) (hpos : ∀ x ∈ l, 0 < w x) :
    ∃ a, chooseWeighted s l w = some a ∧ a ∈ l := by
  have hsum : 0 < (l.map w).sum := by
    cases l with
    | nil => simp at hne
    | cons x xs =>
      have := hpos x (by simp)
      simp only [List.map_cons, List.sum_cons]
      omega
  have hr : s % (l.map w).sum < (l.map w).sum := Nat.mod_lt _ hsum
  obtain ⟨j, hj, hjl⟩ := pickIdx_isSome hr
  rw [List.length_map] at hjl
  refine ⟨l.get ⟨j, hjl⟩, ?_, List.get_mem l _ _⟩
  unfold chooseWeighted
  rw [if_neg (by omega), hj]
  exact List.get?_eq_get hjl

/-- Any successful choose_weighted result is an element of the list. -/
theorem chooseWeighted_mem {l : List α} {w : α → ℕ} {s : ℕ} {a : α}
    (h : chooseWeighted s l w = some a) : a ∈ l := by
  unfold chooseWeighted at h
  by_cases hz : (l.map w).sum = 0
  · rw [if_pos hz] at h
    exact absurd h (by simp)
  · rw [if_neg hz] at h
    rcases hp : pickIdx (s % (l.map w).sum) (l.map w) with _ | j
    · rw [hp] at h
      exact absurd h (by simp)
    · rw [hp] at h
      exact List.get?_mem h

/-- The score-sheet window of the age-weighted tier is never empty on a
non-empty corpus whose sheet has one entry per input. -/
theorem tier7Window_ne_nil (q : Queue) (s : ℕ) (hne : q.inputs ≠ [])
    (hsheet : q.score_sheet.length = q.inputs.length) :
    tier7Window q s ≠ [] := by
  have hlen : 0 < q.inputs.length := List.length_pos.mpr hne
  unfold tier7Window
  by_cases h8 : 8 < q.inputs.length
  · rw [if_pos h8]
    have hstart : s % (q.inputs.length - 8) < q.inputs.length - 8 :=
      Nat.mod_lt _ (by omega)
    intro hc
    have hc' := congrArg List.length hc
    rw [List.length_take, List.length_drop, hsheet] at hc'
    simp only [List.length_nil] at hc'
    rw [Nat.min_eq_zero_iff] at hc'
    omega
  · rw [if_neg h8]
    intro hc
    have hc' := congrArg List.length hc
    rw [List.length_take, hsheet] at hc'
    simp only [List.length_nil] at hc'
    rw [Nat.min_eq_zero_iff] at hc'
    omega

/-- Every window entry comes from the score sheet. -/
theorem tier7Window_subset {q : Queue} {s : ℕ} {p : ℕ × ℕ}
    (hp : p ∈ tier7Window q s) : p ∈ q.score_sheet := by
  unfold tier7Window at hp
  split at hp
  · exact List.mem_of_mem_drop (List.mem_of_mem_take hp)
  · exact List.mem_of_mem_take hp

/-- A weighted choice over a zero-total-weight set fails (rand's
AllWeightsZero / NoItem error). -/
theorem chooseWeighted_eq_none {l : List α} (w : α → ℕ) (s : ℕ)
    (h : (l.map w).sum = 0) : chooseWeighted s l w = none := by
  unfold chooseWeighted
  rw [if_pos h]

/-- modifyAt preserves length. -/
theorem modifyAt_length (l : List α) (i : ℕ) (f : α → α) :
    (modifyAt l i f).length = l.length := by
  induction l generalizing i with
  | nil => rfl
  | cons a rest ih =>
    cases i with
    | zero => rfl
    | succ n => simpa [modifyAt] using ih n

/-- Reading back the modified position. -/
theorem modifyAt_get? (l : List α) (i : ℕ) (f : α → α) :
    (modifyAt l i f).get? i = (l.get? i).map f := by
  induction l generalizing i with
  | nil => simp [modifyAt]
  | cons a rest ih =>
    cases i with
    | zero => simp [modifyAt]
    | succ n => simpa [modifyAt] using ih n

/-- A successful consuming pending-tier choice erases the picked index
from the pending set and marks its input mutated. -/
theorem choose_weighted_true {seed : ℕ} {f f2 : List ℕ} {inputs inp2 : List Input}
    {idx : ℕ}
    (h : Queue.choose_weighted seed f inputs true = some (f2, inp2, idx)) :
    f2 = f.erase idx ∧
    inp2 = modifyAt inputs idx (fun i => { i with was_mutated := true }) ∧
    idx ∈ f := by
  unfold Queue.choose_weighted at h
  rcases hc : chooseWeighted seed f (scoreAt inputs) with _ | j
  · rw [hc] at h
    simp at h
  · rw [hc] at h
    simp only [if_true] at h
    cases h
    exact ⟨rfl, rfl, chooseWeighted_mem hc⟩

/-- A successful non-consuming pending-tier choice leaves the pending set
and the inputs untouched. -/
theorem choose_weighted_false {seed : ℕ} {f f2 : List ℕ} {inputs inp2 : List Input}
    {idx : ℕ}
    (h : Queue.choose_weighted seed f inputs false = some (f2, inp2, idx)) :
    f2 = f ∧ inp2 = inputs ∧ idx ∈ f := by
  unfold Queue.choose_weighted at h
  rcases hc : chooseWeighted seed f (scoreAt inputs) with _ | j
  · rw [hc] at h
    simp at h
  · rw [hc] at h
    simp only [if_false] at h
    cases h
    exact ⟨rfl, rfl, chooseWeighted_mem hc⟩

/-- The input at the modified position is marked mutated. -/
theorem modified_was_mutated {inputs : List Input} {idx : ℕ} {i : Input}
    (h : (modifyAt inputs idx (fun i => { i with was_mutated := true })).get? idx
          = some i) :
    i.was_mutated = true := by
  rw [modifyAt_get?] at h
  obtain ⟨a, -, ha⟩ := Option.map_eq_some'.mp h
  rw [← ha]

/-- Closed form of the inner branch fold of the culling merge: coverage
grows by the branch set, favored flips on any new branch, and the new
branches are recorded. -/
theorem foldl_insertBr (brs : List ℕ) (cov : Finset ℕ) (fav : Bool) (nc : Finset ℕ) :
    brs.foldl insertBr (cov, fav, nc) =
      (cov ∪ brs.toFinset, fav || decide (brs.toFinset \ cov ≠ ∅),
       nc ∪ (brs.toFinset \ cov)) := by
  induction brs generalizing cov fav nc with
  | nil => simp
  | cons br rest ih =>
    simp only [List.foldl_cons, List.toFinset_cons]
    by_cases hbr : br ∈ cov
    · have h1 : insertBr (cov, fav, nc) br = (cov, fav, nc) := by
        unfold insertBr
        rw [if_pos hbr]
      rw [h1, ih]
      simp only [Prod.mk.injEq]
      refine ⟨?_, ?_, ?_⟩
      · rw [Finset.union_insert,
          Finset.insert_eq_self.mpr (Finset.mem_union_left _ hbr)]
      · rw [Finset.insert_sdiff_of_mem _ hbr]
      · rw [Finset.insert_sdiff_of_mem _ hbr]
    · have h1 : insertBr (cov, fav, nc) br = (insert br cov, true, insert br nc) := by
        unfold insertBr
        rw [if_neg hbr]
      rw [h1, ih]
      simp only [Prod.mk.injEq]
      have hne : insert br rest.toFinset \ cov ≠ ∅ :=
        Finset.ne_empty_of_mem
          (Finset.mem_sdiff.mpr ⟨Finset.mem_insert_self br _, hbr⟩)
      refine ⟨?_, ?_, ?_⟩
      · rw [Finset.union_insert, Finset.insert_union]
      · rw [Bool.true_or, decide_eq_true hne, Bool.or_true]
      · ext a
        simp only [Finset.mem_union, Finset.mem_insert, Finset.mem_sdiff]
        by_cases hab : a = br
        · subst hab
          simp [hbr]
        · simp only [hab, false_or, or_false]

/-- Folding branch unions from any accumulator. -/
theorem infosBr_acc (infos : List CallInfo) : ∀ s : Finset ℕ,
    infos.foldl (fun s ci => s ∪ ci.branches.toFinset) s = s ∪ infosBr infos := by
  induction infos with
  | nil =>
    intro s
    simp [infosBr]
  | cons ci rest ih =>
    intro s
    simp only [List.foldl_cons]
    rw [ih (s ∪ ci.branches.toFinset)]
    have h2 : infosBr (ci :: rest) = ci.branches.toFinset ∪ infosBr rest := by
      rw [show infosBr (ci :: rest) =
          List.foldl (fun s ci => s ∪ ci.branches.toFinset)
            (∅ ∪ ci.branches.toFinset) rest from rfl]
      rw [ih (∅ ∪ ci.branches.toFinset), Finset.empty_union]
    rw [h2, Finset.union_assoc]

/-- Branch union of a cons of infos. -/
theorem infosBr_cons (ci : CallInfo) (rest : List CallInfo) :
    infosBr (ci :: rest) = ci.branches.toFinset ∪ infosBr rest := by
  rw [show infosBr (ci :: rest) =
      List.foldl (fun s ci => s ∪ ci.branches.toFinset)
        (∅ ∪ ci.branches.toFinset) rest from rfl]
  rw [infosBr_acc, Finset.empty_union]

/-- Closed form of the whole per-input merge loop of culling. -/
theorem foldl_mergeStep (infos : List CallInfo) (cov : Finset ℕ) (fav : Bool)
    (nc : Finset ℕ) :
    infos.foldl (fun acc ci => ci.branches.foldl insertBr acc) (cov, fav, nc) =
      (cov ∪ infosBr infos,
       fav || decide (infosBr infos \ cov ≠ ∅),
       nc ∪ (infosBr infos \ cov)) := by
  induction infos generalizing cov fav nc with
  | nil => simp [infosBr]
  | cons ci rest ih =>
    rw [List.foldl_cons, foldl_insertBr, ih, infosBr_cons]
    have hiff : (ci.branches.toFinset \ cov ≠ ∅ ∨
        infosBr rest \ (cov ∪ ci.branches.toFinset) ≠ ∅) ↔
        ((ci.branches.toFinset ∪ infosBr rest) \ cov ≠ ∅) := by
      simp only [← Finset.nonempty_iff_ne_empty]
      constructor
      · rintro (⟨a, ha⟩ | ⟨a, ha⟩)
        · rw [Finset.mem_sdiff] at ha
          exact ⟨a, Finset.mem_sdiff.mpr ⟨Finset.mem_union_left _ ha.1, ha.2⟩⟩
        · rw [Finset.mem_sdiff] at ha
          refine ⟨a, Finset.mem_sdiff.mpr ⟨Finset.mem_union_right _ ha.1, ?_⟩⟩
          exact fun hc => ha.2 (Finset.mem_union_left _ hc)
      · rintro ⟨a, ha⟩
        rw [Finset.mem_sdiff, Finset.mem_union] at ha
        rcases ha with ⟨hab | har, hcov⟩
        · exact Or.inl ⟨a, Finset.mem_sdiff.mpr ⟨hab, hcov⟩⟩
        · by_cases hb : a ∈ ci.branches.toFinset
          · exact Or.inl ⟨a, Finset.mem_sdiff.mpr ⟨hb, hcov⟩⟩
          · refine Or.inr ⟨a, Finset.mem_sdiff.mpr ⟨har, ?_⟩⟩
            rw [Finset.mem_union]
            rintro (h | h)
            · exact hcov h
            · exact hb h
    have hset : (nc ∪ (ci.branches.toFinset \ cov)) ∪
        (infosBr rest \ (cov ∪ ci.branches.toFinset)) =
        nc ∪ ((ci.branches.toFinset ∪ infosBr rest) \ cov) := by
      ext a
      simp only [Finset.mem_union, Finset.mem_sdiff]
      constructor
      · rintro ((h | ⟨h1, h2⟩) | ⟨h1, h2⟩)
        · exact Or.inl h
        · exact Or.inr ⟨Or.inl h1, h2⟩
        · exact Or.inr ⟨Or.inr h1, fun hc => h2 (Or.inl hc)⟩
      · rintro (h | ⟨h1 | h1, h2⟩)
        · exact Or.inl (Or.inl h)
        · exact Or.inl (Or.inr ⟨h1, h2⟩)
        · by_cases hb : a ∈ ci.branches.toFinset
          · exact Or.inl (Or.inr ⟨hb, h2⟩)
          · refine Or.inr ⟨h1, ?_⟩
            rintro (h | h)
            · exact h2 h
            · exact hb h
    simp only [Prod.mk.injEq]
    refine ⟨by rw [Finset.union_assoc], ?_, hset⟩
    rw [Bool.or_assoc]
    congr 1
    by_cases h1 : ci.branches.toFinset \ cov ≠ ∅
    · simp [h1, hiff.mp (Or.inl h1)]
    · by_cases h2 : infosBr rest \ (cov ∪ ci.branches.toFinset) ≠ ∅
      · simp [h2, hiff.mp (Or.inr h2)]
      · have h3 : ¬((ci.branches.toFinset ∪ infosBr rest) \ cov ≠ ∅) :=
          fun h => (hiff.mpr h).elim h1 h2
        simp [h1, h2, h3]

/-- Closed form of the per-input merge of culling: the new coverage is
exactly the input's branches minus the running set, favored exactly when
that difference is non-empty. -/
theorem mergeInput_eq (cov : Finset ℕ) (i : Input) :
    mergeInput cov i =
      (cov ∪ inputBranches i, decide (inputBranches i \ cov ≠ ∅),
       inputBranches i \ cov) := by
  unfold mergeInput inputBranches
  rw [foldl_mergeStep]
  simp

/-- The discard test of the culling walk is the negation of the
retention test of the specification walk. -/
theorem not_retain (d c : Bool) (n : ℕ) :
    (!(d || decide (2 < n) || !c)) = (!d && decide (n ≤ 2) && c) := by
  have h : decide (n ≤ 2) = !decide (2 < n) := by
    rw [← decide_not]
    exact decide_eq_decide.mpr (by omega)
  rw [h]
  cases d <;> cases c <;> cases hd : decide (2 < n) <;> simp

/-- One step of the culling walk, in closed form. -/
theorem cullLoop_cons (coins : ℕ → Bool) (k : ℕ) (cov : Finset ℕ) (i : Input)
    (rest : List Input) :
    cullLoop coins k cov (i :: rest) =
      if decide (inputBranches i \ cov ≠ ∅) || decide (2 < i.len) || !coins k then
        { i with new_cov := inputBranches i \ cov,
                 favored := decide (inputBranches i \ cov ≠ ∅),
                 age := i.age + 1 }
          :: cullLoop coins (k + 1) (cov ∪ inputBranches i) rest
      else
        cullLoop coins (k + 1) (cov ∪ inputBranches i) rest := by
  simp only [cullLoop, mergeInput_eq]
  rw [← not_retain]
  cases h : (decide (inputBranches i \ cov ≠ ∅) || decide (2 < i.len) || !coins k) <;>
    simp [h]

/-- One step of the specification walk, in the same closed form. -/
theorem cullRetainSpec_cons (coins : ℕ → Bool) (k : ℕ) (cov : Finset ℕ) (i : Input)
    (rest : List Input) :
    cullRetainSpec coins k cov (i :: rest) =
      if decide (inputBranches i \ cov ≠ ∅) || decide (2 < i.len) || !coins k then
        { i with new_cov := inputBranches i \ cov,
                 favored := decide (inputBranches i \ cov ≠ ∅),
                 age := i.age + 1 }
          :: cullRetainSpec coins (k + 1) (cov ∪ inputBranches i) rest
      else
        cullRetainSpec coins (k + 1) (cov ∪ inputBranches i) rest := by
  unfold cullRetainSpec
  rw [show cullWalkSpec cov (i :: rest) =
      (i, decide (inputBranches i \ cov ≠ ∅), inputBranches i \ cov)
        :: cullWalkSpec (cov ∪ inputBranches i) rest from rfl]
  rw [List.enumFrom_cons, List.filter_cons]
  cases hret : (decide (inputBranches i \ cov ≠ ∅) || decide (2 < i.len) || !coins k) <;>
    simp [hret]

/-- The culling walk computes exactly the specification walk's
retention. -/
theorem cullLoop_eq_retain (coins : ℕ → Bool) (l : List Input) :
    ∀ (k : ℕ) (cov : Finset ℕ),
    cullLoop coins k cov l = cullRetainSpec coins k cov l := by
  induction l with
  | nil =>
    intro k cov
    rfl
  | cons i rest ih =>
    intro k cov
    rw [cullLoop_cons, cullRetainSpec_cons, ih (k + 1) (cov ∪ inputBranches i)]

/-- Inserting into the sorted list permutes the cons. -/
theorem insertSorted_perm (a : Input) (l : List Input) :
    (insertSorted a l).Perm (a :: l) := by
  induction l with
  | nil => exact List.Perm.refl _
  | cons b rest ih =>
    unfold insertSorted
    split
    · exact List.Perm.refl _
    · exact (ih.cons b).trans (List.Perm.swap a b rest)

/-- The culling sort is a permutation of the corpus. -/
theorem sortInputs_perm (l : List Input) : (sortInputs l).Perm l := by
  induction l with
  | nil => exact List.Perm.refl _
  | cons a rest ih =>
    exact (insertSorted_perm a (sortInputs rest)).trans (ih.cons a)

/-- Folding any Finset-producing union from any accumulator. -/
theorem foldl_union_acc {β : Type} (g : β → Finset ℕ) (l : List β) : ∀ s : Finset ℕ,
    l.foldl (fun s x => s ∪ g x) s = s ∪ l.foldl (fun s x => s ∪ g x) ∅ := by
  induction l with
  | nil =>
    intro s
    simp
  | cons x rest ih =>
    intro s
    simp only [List.foldl_cons]
    rw [ih (s ∪ g x), ih (∅ ∪ g x), Finset.empty_union, Finset.union_assoc]

/-- Prefix union across the head of the walk list. -/
theorem prefixBr_cons (i0 : Input) (rest : List Input) (n : ℕ) :
    prefixBr (i0 :: rest) (n + 1) = inputBranches i0 ∪ prefixBr rest n := by
  unfold prefixBr
  simp only [List.take_succ_cons, List.foldl_cons, Finset.empty_union]
  exact foldl_union_acc inputBranches (rest.take n) (inputBranches i0)

/-- The j-th entry of the specification walk carries exactly the j-th
input's branches minus the initial set and everything contributed by the
first j walked inputs. -/
theorem cullWalkSpec_get? (l : List Input) : ∀ (cov : Finset ℕ) (j : ℕ) {i : Input},
    l.get? j = some i →
    (cullWalkSpec cov l).get? j =
      some (i, decide (inputBranches i \ (cov ∪ prefixBr l j) ≠ ∅),
            inputBranches i \ (cov ∪ prefixBr l j)) := by
  induction l with
  | nil =>
    intro cov j i h
    simp at h
  | cons i0 rest ih =>
    intro cov j i h
    rw [show cullWalkSpec cov (i0 :: rest) =
        (i0, decide (inputBranches i0 \ cov ≠ ∅), inputBranches i0 \ cov)
          :: cullWalkSpec (cov ∪ inputBranches i0) rest from rfl]
    cases j with
    | zero =>
      rw [List.get?_cons_zero] at h
      cases h
      rw [List.get?_cons_zero]
      simp [prefixBr]
    | succ n =>
      rw [List.get?_cons_succ] at h
      rw [List.get?_cons_succ, ih (cov ∪ inputBranches i0) n h, prefixBr_cons,
        ← Finset.union_assoc]

/-- Queue::append_inner in flat closed form: every side-set extension as
one conditional append. -/
theorem append_inner_eq (q : Queue) (inp : Input) (idx : ℕ) :
    Queue.append_inner q inp idx =
      { q with
          favored := if inp.favored then q.favored ++ [idx] else q.favored,
          pending_favored := if inp.favored && !inp.was_mutated
            then q.pending_favored ++ [idx] else q.pending_favored,
          pending_none_favored := if !inp.favored && !inp.was_mutated
            then q.pending_none_favored ++ [idx] else q.pending_none_favored,
          found_re := if inp.found_new_re then q.found_re ++ [idx] else q.found_re,
          pending_found_re := if inp.found_new_re && !inp.was_mutated
            then q.pending_found_re ++ [idx] else q.pending_found_re,
          self_contained := if inp.self_contained
            then q.self_contained ++ [idx] else q.self_contained,
          score_sheet := q.score_sheet ++ [(inp.score, idx)],
          min_score := if inp.score < q.min_score.1 then (inp.score, idx) else q.min_score,
          input_depth := modifyAt (growDepth q.input_depth inp.depth) inp.depth
            (fun b => b ++ [idx]),
          inputs := q.inputs ++ [inp] } := by
  unfold Queue.append_inner
  by_cases h1 : inp.favored <;> by_cases h2 : inp.was_mutated <;>
    by_cases h3 : inp.found_new_re <;> by_cases h4 : inp.self_contained <;>
      by_cases h5 : inp.score < q.min_score.1 <;>
        simp [h1, h2, h3, h4, h5]

/-- The culling-free append core grows the corpus by one and leaves the
culling bookkeeping fields alone. -/
theorem appendCore_fields (dd : (ℕ → ℕ) → Input → ℕ) (sc : Avgs → Input → ℕ)
    (q : Queue) (inp : Input) :
    (Queue.appendCore dd sc q inp).inputs.length = q.inputs.length + 1 ∧
    (Queue.appendCore dd sc q inp).last_num = q.last_num ∧
    (Queue.appendCore dd sc q inp).culling_threshold = q.culling_threshold ∧
    (Queue.appendCore dd sc q inp).culling_duration = q.culling_duration := by
  unfold Queue.appendCore
  rw [append_inner_eq]
  simp

/-- Iterated append cores grow the corpus by the list length and leave
the culling bookkeeping fields alone. -/
theorem iterCore_fields (dd : (ℕ → ℕ) → Input → ℕ) (sc : Avgs → Input → ℕ)
    (l : List Input) : ∀ q : Queue,
    (Queue.iterCore dd sc q l).inputs.length = q.inputs.length + l.length ∧
    (Queue.iterCore dd sc q l).last_num = q.last_num ∧
    (Queue.iterCore dd sc q l).culling_threshold = q.culling_threshold ∧
    (Queue.iterCore dd sc q l).culling_duration = q.culling_duration := by
  induction l with
  | nil =>
    intro q
    exact ⟨rfl, rfl, rfl, rfl⟩
  | cons i rest ih =>
    intro q
    have hstep : Queue.iterCore dd sc q (i :: rest)
        = Queue.iterCore dd sc (Queue.appendCore dd sc q i) rest := rfl
    rw [hstep]
    obtain ⟨h1, h2, h3, h4⟩ := ih (Queue.appendCore dd sc q i)
    obtain ⟨g1, g2, g3, g4⟩ := appendCore_fields dd sc q i
    refine ⟨?_, by rw [h2, g2], by rw [h3, g3], by rw [h4, g4]⟩
    rw [h1, g1, List.length_cons]
    omega

/-- An append whose post-push state is below both culling triggers never
culls: the whole sequence is the plain append cores. -/
theorem appendN_no_cull (dd : (ℕ → ℕ) → Input → ℕ) (sc : Avgs → Input → ℕ)
    (coins : ℕ → Bool) (shuffle : List Input → List Input)
    (l : List Input) : ∀ q : Queue,
    q.inputs.length + l.length ≤ q.culling_threshold + q.last_num →
    Queue.appendN dd sc coins shuffle 0 q l = some (Queue.iterCore dd sc q l) := by
  induction l with
  | nil =>
    intro q _
    rfl
  | cons i rest ih =>
    intro q h
    obtain ⟨g1, g2, g3, g4⟩ := appendCore_fields dd sc q i
    have hle : q.inputs.length + 1 - q.last_num ≤ q.culling_threshold := by
      rw [List.length_cons] at h
      omega
    have hsc : Queue.should_culling (Queue.appendCore dd sc q i) 0 = false := by
      unfold Queue.should_culling
      rw [g1, g2, g3, g4]
      simp [Nat.not_lt.mpr hle]
    have happ : Queue.append dd sc coins shuffle 0 q i
        = some (Queue.appendCore dd sc q i) := by
      show (if Queue.should_culling (Queue.appendCore dd sc q i) 0 = true
          then Queue.culling dd sc coins shuffle (Queue.appendCore dd sc q i)
          else some (Queue.appendCore dd sc q i)) = some (Queue.appendCore dd sc q i)
      rw [hsc]
      simp
    unfold Queue.appendN
    rw [List.foldlM_cons, happ]
    have hrest : Queue.appendN dd sc coins shuffle 0 (Queue.appendCore dd sc q i) rest
        = some (Queue.iterCore dd sc (Queue.appendCore dd sc q i) rest) := by
      apply ih
      rw [g1, g2, g3]
      rw [List.length_cons] at h
      omega
    unfold Queue.appendN at hrest
    simpa using hrest

/-- Output list of the iter_mut loop: the inputs with distinct_degree
recomputed, in order. -/
theorem ddAvgLoop_snd_acc (dd : (ℕ → ℕ) → Input → ℕ) (cc : ℕ → ℕ) (l : List Input) :
    ∀ (a : Avgs) (acc : List Input),
    (l.foldl (ddAvgStep dd cc) (a, acc)).2
       = acc ++ l.map (fun i => { i with distinct_degree := dd cc i }) := by
  induction l with
  | nil =>
    intro a acc
    simp
  | cons i rest ih =>
    intro a acc
    rw [List.foldl_cons]
    rw [show ddAvgStep dd cc (a, acc) i
        = ((ddAvgStep dd cc (a, acc) i).1,
           acc ++ [{ i with distinct_degree := dd cc i }]) from rfl]
    rw [ih]
    simp

/-- Accumulated metric sums of the iter_mut loop. -/
theorem ddAvgLoop_fst_acc (dd : (ℕ → ℕ) → Input → ℕ) (cc : ℕ → ℕ) (l : List Input) :
    ∀ (a : Avgs) (acc : List Input),
    ((l.foldl (ddAvgStep dd cc) (a, acc)).1 : Avgs)
      = { a with
          gaining_rate := a.gaining_rate + (l.map (fun i => i.gaining_rate)).sum,
          distinct_degree := a.distinct_degree + (l.map (fun i => dd cc i)).sum,
          age := a.age + (l.map (fun i => i.age)).sum,
          sz := a.sz + (l.map (fun i => i.sz)).sum,
          depth := a.depth + (l.map (fun i => i.depth)).sum,
          len := a.len + (l.map (fun i => i.len)).sum,
          exec_tm := a.exec_tm + (l.map (fun i => i.exec_tm)).sum,
          res_cnt := a.res_cnt + (l.map (fun i => i.res_cnt)).sum,
          new_cov := a.new_cov + (l.map (fun i => i.new_cov.card)).sum } := by
  induction l with
  | nil =>
    intro a acc
    simp
  | cons i rest ih =>
    intro a acc
    rw [List.foldl_cons]
    rw [show ddAvgStep dd cc (a, acc) i
        = ({ a with
              gaining_rate := a.gaining_rate + i.gaining_rate,
              distinct_degree := a.distinct_degree + dd cc i,
              age := a.age + i.age,
              sz := a.sz + i.sz,
              depth := a.depth + i.depth,
              len := a.len + i.len,
              exec_tm := a.exec_tm + i.exec_tm,
              res_cnt := a.res_cnt + i.res_cnt,
              new_cov := a.new_cov + i.new_cov.card },
           acc ++ [{ i with distinct_degree := dd cc i }]) from rfl]
    rw [ih]
    simp [Nat.add_assoc]

/-- Inputs of the queue built by the rebuild loop of culling. -/
theorem cullAppendLoop_inputs (sc : Avgs → Input → ℕ) (avgs : Avgs) (l : List Input) :
    ∀ (q : Queue) (t : ℕ),
    (l.foldl (cullAppendStep sc avgs) (q, t)).1.inputs
      = q.inputs ++ l.map (fun i => { i with score := sc avgs i }) := by
  induction l with
  | nil =>
    intro q t
    simp
  | cons i rest ih =>
    intro q t
    rw [List.foldl_cons]
    rw [show cullAppendStep sc avgs (q, t) i
        = (Queue.append_inner q { i with score := sc avgs i } q.inputs.length,
           t + ({ i with score := sc avgs i } : Input).score) from rfl]
    rw [ih, append_inner_eq]
    simp

/-- The culling walk retains something whenever some input is longer
than 2 or covers a branch outside the running ownership set. -/
theorem cullLoop_ne_nil (coins : ℕ → Bool) (l : List Input) : ∀ (k : ℕ) (cov : Finset ℕ),
    (∃ i ∈ l, 2 < i.len ∨ ¬ inputBranches i ⊆ cov) →
    cullLoop coins k cov l ≠ [] := by
  induction l with
  | nil =>
    rintro k cov ⟨i, hi, -⟩
    simp at hi
  | cons i0 rest ih =>
    rintro k cov ⟨i, hi, hprop⟩
    rw [cullLoop_cons]
    by_cases hret : (decide (inputBranches i0 \ cov ≠ ∅) || decide (2 < i0.len) ||
        !coins k) = true
    · rw [if_pos hret]
      exact List.cons_ne_nil _ _
    · rw [if_neg hret]
      simp only [Bool.or_eq_true, decide_eq_true_eq, Bool.not_eq_true'] at hret
      push_neg at hret
      obtain ⟨⟨hfav, hlen⟩, -⟩ := hret
      have hsub : inputBranches i0 ⊆ cov := Finset.sdiff_eq_empty_iff_subset.mp hfav
      have hcov : cov ∪ inputBranches i0 = cov := Finset.union_eq_left.mpr hsub
      apply ih (k + 1) (cov ∪ inputBranches i0)
      rcases List.mem_cons.mp hi with heq | hmem
      · subst heq
        rcases hprop with hp | hp
        · exact absurd hp (Nat.not_lt.mpr hlen)
        · exact absurd hsub hp
      · refine ⟨i, hmem, ?_⟩
        rcases hprop with hp | hp
        · exact Or.inl hp
        · refine Or.inr ?_
          rw [hcov]
          exact hp

/-- A successful fallback selection changes nothing but the cursor. -/
theorem select_fallback_frame {o : SelOracle} {q : Queue} {r : Queue × ℕ}
    (h : Queue.select_fallback o q = some r) :
    r.1.inputs = q.inputs ∧
    r.1.pending_favored = q.pending_favored ∧
    r.1.pending_found_re = q.pending_found_re ∧
    r.1.pending_none_favored = q.pending_none_favored ∧
    r.1.favored = q.favored ∧ r.1.found_re = q.found_re ∧
    r.1.self_contained = q.self_contained ∧ r.1.score_sheet = q.score_sheet ∧
    r.1.input_depth = q.input_depth := by
  unfold Queue.select_fallback at h
  rcases hc : chooseWeighted o.pickF
      (List.range' q.current (min (q.current + 8) q.inputs.length - q.current))
      (scoreAt q.inputs) with _ | i
  · rw [hc] at h
    simp at h
  · rw [hc] at h
    cases h
    exact ⟨rfl, rfl, rfl, rfl, rfl, rfl, rfl, rfl, rfl⟩

end Lemmas

section Claim1

set_option maxHeartbeats 1600000 in
/-- C1: on a consistent non-empty queue, select_idx evaluates exactly the
spec's ordered tier cascade — pending-favored, pending-found-new-re,
pending-non-favored, favored, found-new-re, self-contained, age-weighted
score-sheet window (only once current_age >= 1), deepest-depth bucket,
then the round-robin weighted window — each tier firing only on a
non-empty set with its own roll within its exact boundary (<=90, <=60,
<30, <=50, <=30, <=10, <=10, <=2, not normalized), otherwise falling
through to the next tier. -/
theorem select_idx_tier_order (o : SelOracle) (to_mutate : Bool) (q : Queue)
    (hne : q.inputs ≠ [])
    (hsheet : q.score_sheet.length = q.inputs.length)
    (hsheetpos : ∀ p ∈ q.score_sheet, 0 < p.1)
    (hbucket : q.input_depth.getLast?.getD [] ≠ []) :
    Queue.select_idx o to_mutate q = selectTiersSpec o to_mutate q := by
  have hwne : tier7Window q o.start7 ≠ [] := tier7Window_ne_nil q o.start7 hne hsheet
  have hwpos : ∀ p ∈ tier7Window q o.start7, 0 < p.1 :=
    fun p hp => hsheetpos p (tier7Window_subset hp)
  unfold Queue.select_idx selectTiersSpec
  by_cases h1 : q.pending_favored ≠ [] ∧ o.roll1 ≤ 90
  · rw [if_pos h1, if_pos h1]
  rw [if_neg h1, if_neg h1]
  by_cases h2 : q.pending_found_re ≠ [] ∧ o.roll2 ≤ 60
  · rw [if_pos h2, if_pos h2]
  rw [if_neg h2, if_neg h2]
  by_cases h3 : q.pending_none_favored ≠ [] ∧ o.roll3 < 30
  · rw [if_pos h3, if_pos h3]
  rw [if_neg h3, if_neg h3]
  by_cases h4 : q.favored ≠ [] ∧ o.roll4 ≤ 50
  · rw [if_pos h4, if_pos h4]
  rw [if_neg h4, if_neg h4]
  by_cases h5 : q.found_re ≠ [] ∧ o.roll5 ≤ 30
  · rw [if_pos h5, if_pos h5]
  rw [if_neg h5, if_neg h5]
  by_cases h6 : q.self_contained ≠ [] ∧ o.roll6 ≤ 10
  · rw [if_pos h6, if_pos h6]
  rw [if_neg h6, if_neg h6]
  by_cases h7 : 1 ≤ q.current_age ∧ o.roll7 ≤ 10
  · rw [if_pos h7, if_pos ⟨hwne, h7.1, h7.2⟩]
    obtain ⟨p, hp, -⟩ := chooseWeighted_isSome (fun p => p.1) o.pick7 hwne hwpos
    rw [hp]
    rfl
  have h7s : ¬(tier7Window q o.start7 ≠ [] ∧ 1 ≤ q.current_age ∧ o.roll7 ≤ 10) :=
    fun hc => h7 ⟨hc.2.1, hc.2.2⟩
  rw [if_neg h7, if_neg h7s]
  by_cases h8 : o.roll8 ≤ 2
  · rw [if_pos h8, if_pos ⟨hbucket, h8⟩]
    rcases hl : q.input_depth.getLast? with _ | b
    · rw [hl] at hbucket
      simp at hbucket
    · rfl
  have h8s : ¬(q.input_depth.getLast?.getD [] ≠ [] ∧ o.roll8 ≤ 2) :=
    fun hc => h8 hc.2
  rw [if_neg h8, if_neg h8s]

/-- Witness for C1 at a concrete consistent one-input queue. -/
theorem select_idx_tier_order_witness :
    wQueue.inputs ≠ [] ∧ wQueue.score_sheet.length = wQueue.inputs.length ∧
    (∀ p ∈ wQueue.score_sheet, 0 < p.1) ∧
    wQueue.input_depth.getLast?.getD [] ≠ [] ∧
    Queue.select_idx wOracle true wQueue = selectTiersSpec wOracle true wQueue :=
  ⟨by decide, by decide, by decide, by decide,
   select_idx_tier_order wOracle true wQueue (by decide) (by decide) (by decide)
     (by decide)⟩

end Claim1

section Claim2

/-- C2 counterexample: a non-empty corpus whose pending-favored tier
fires on a candidate set with every score zero does not fall through to
the next tier: select_idx hits the .unwrap() of the failed weighted
choice and panics (modelled as none). -/
theorem select_idx_zero_weight_panics :
    Queue.select_idx wOracleZ true wQueueZ = none := by
  rfl

/-- C2 amended: only the age-weighted score-sheet tier tolerates an
all-zero-weight candidate set, failing over to the final round-robin
tier; a pending tier that fires on an all-zero-score set panics, and the
final round-robin tier itself panics when its window has no positive
weight. -/
theorem zero_weight_tier_behavior :
    (∀ (o : SelOracle) (q : Queue) (tm : Bool),
      q.pending_favored ≠ [] → o.roll1 ≤ 90 →
      (∀ i ∈ q.pending_favored, scoreAt q.inputs i = 0) →
      Queue.select_idx o tm q = none) ∧
    (∀ (o : SelOracle) (q : Queue) (tm : Bool),
      ¬(q.pending_favored ≠ [] ∧ o.roll1 ≤ 90) →
      q.pending_found_re ≠ [] → o.roll2 ≤ 60 →
      (∀ i ∈ q.pending_found_re, scoreAt q.inputs i = 0) →
      Queue.select_idx o tm q = none) ∧
    (∀ (o : SelOracle) (q : Queue) (tm : Bool),
      ¬(q.pending_favored ≠ [] ∧ o.roll1 ≤ 90) →
      ¬(q.pending_found_re ≠ [] ∧ o.roll2 ≤ 60) →
      q.pending_none_favored ≠ [] → o.roll3 < 30 →
      (∀ i ∈ q.pending_none_favored, scoreAt q.inputs i = 0) →
      Queue.select_idx o tm q = none) ∧
    (∀ (o : SelOracle) (q : Queue) (tm : Bool),
      q.pending_favored = [] → q.pending_found_re = [] →
      q.pending_none_favored = [] → q.favored = [] → q.found_re = [] →
      q.self_contained = [] → 1 ≤ q.current_age → o.roll7 ≤ 10 →
      ((tier7Window q o.start7).map Prod.fst).sum = 0 →
      Queue.select_idx o tm q = Queue.select_fallback o q) ∧
    (∀ (o : SelOracle) (q : Queue),
      ((List.range' q.current (min (q.current + 8) q.inputs.length - q.current)).map
          (scoreAt q.inputs)).sum = 0 →
      Queue.select_fallback o q = none) := by
  refine ⟨?_, ?_, ?_, ?_, ?_⟩
  · intro o q tm hne hroll hzero
    unfold Queue.select_idx
    rw [if_pos ⟨hne, hroll⟩]
    have hsum : (q.pending_favored.map (scoreAt q.inputs)).sum = 0 :=
      List.sum_eq_zero (by
        intro x hx
        obtain ⟨i, hi, hix⟩ := List.mem_map.mp hx
        rw [← hix]
        exact hzero i hi)
    unfold Queue.choose_weighted
    rw [chooseWeighted_eq_none _ o.pick1 hsum]
  · intro o q tm hn1 hne hroll hzero
    unfold Queue.select_idx
    rw [if_neg hn1, if_pos ⟨hne, hroll⟩]
    have hsum : (q.pending_found_re.map (scoreAt q.inputs)).sum = 0 :=
      List.sum_eq_zero (by
        intro x hx
        obtain ⟨i, hi, hix⟩ := List.mem_map.mp hx
        rw [← hix]
        exact hzero i hi)
    unfold Queue.choose_weighted
    rw [chooseWeighted_eq_none _ o.pick2 hsum]
  · intro o q tm hn1 hn2 hne hroll hzero
    unfold Queue.select_idx
    rw [if_neg hn1, if_neg hn2, if_pos ⟨hne, hroll⟩]
    have hsum : (q.pending_none_favored.map (scoreAt q.inputs)).sum = 0 :=
      List.sum_eq_zero (by
        intro x hx
        obtain ⟨i, hi, hix⟩ := List.mem_map.mp hx
        rw [← hix]
        exact hzero i hi)
    unfold Queue.choose_weighted
    rw [chooseWeighted_eq_none _ o.pick3 hsum]
  · intro o q tm h1 h2 h3 h4 h5 h6 hage hroll hwsum
    unfold Queue.select_idx
    rw [if_neg (fun hc => hc.1 h1), if_neg (fun hc => hc.1 h2),
        if_neg (fun hc => hc.1 h3), if_neg (fun hc => hc.1 h4),
        if_neg (fun hc => hc.1 h5), if_neg (fun hc => hc.1 h6),
        if_pos ⟨hage, hroll⟩]
    rw [chooseWeighted_eq_none (fun p : ℕ × ℕ => p.1) o.pick7 hwsum]
  · intro o q hsum
    unfold Queue.select_fallback
    rw [chooseWeighted_eq_none _ o.pickF hsum]

/-- Witness for the amended C2 at concrete queues: a zero-score set in
each of the three pending tiers panics, an all-zero score-sheet window
falls through to the final tier, and an all-zero fallback window
panics. -/
theorem zero_weight_tier_behavior_witness :
    (Queue.select_idx wOracleZ false wQueueZ = none) ∧
    (Queue.select_idx wOracleZ2 false wQueueZ2 = none) ∧
    (Queue.select_idx wOracleZ3 false wQueueZ3 = none) ∧
    (Queue.select_idx wOracleW false wQueueW = Queue.select_fallback wOracleW wQueueW) ∧
    (Queue.select_fallback wOracle wQueueZ = none) :=
  ⟨zero_weight_tier_behavior.1 wOracleZ wQueueZ false (by decide) (by decide) (by decide),
   zero_weight_tier_behavior.2.1 wOracleZ2 wQueueZ2 false (by decide) (by decide)
     (by decide) (by decide),
   zero_weight_tier_behavior.2.2.1 wOracleZ3 wQueueZ3 false (by decide) (by decide)
     (by decide) (by decide) (by decide),
   zero_weight_tier_behavior.2.2.2.1 wOracleW wQueueW false (by decide) (by decide)
     (by decide) (by decide) (by decide) (by decide) (by decide) (by decide) (by decide),
   zero_weight_tier_behavior.2.2.2.2 wOracle wQueueZ (by decide)⟩

end Claim2

section Claim6

/-- C6: a consuming select_idx(to_mutate=true) that resolves through one
of the three pending tiers removes the returned index from that pending
set (and only that set) and marks the chosen input was_mutated, while a
non-consuming select_idx(to_mutate=false) leaves the inputs and every
side-set unchanged whichever tier resolves. -/
theorem select_idx_pending_consumption (o : SelOracle) (q : Queue) :
    ((q.pending_favored ≠ [] ∧ o.roll1 ≤ 90) →
      ∀ r : Queue × ℕ, Queue.select_idx o true q = some r →
        r.1.pending_favored = q.pending_favored.erase r.2 ∧
        r.1.inputs = modifyAt q.inputs r.2 (fun i => { i with was_mutated := true }) ∧
        (∀ i, r.1.inputs.get? r.2 = some i → i.was_mutated = true) ∧
        r.2 ∈ q.pending_favored ∧
        r.1.pending_found_re = q.pending_found_re ∧
        r.1.pending_none_favored = q.pending_none_favored ∧
        r.1.favored = q.favored ∧ r.1.found_re = q.found_re ∧
        r.1.self_contained = q.self_contained ∧ r.1.score_sheet = q.score_sheet ∧
        r.1.input_depth = q.input_depth) ∧
    (¬(q.pending_favored ≠ [] ∧ o.roll1 ≤ 90) →
      (q.pending_found_re ≠ [] ∧ o.roll2 ≤ 60) →
      ∀ r : Queue × ℕ, Queue.select_idx o true q = some r →
        r.1.pending_found_re = q.pending_found_re.erase r.2 ∧
        r.1.inputs = modifyAt q.inputs r.2 (fun i => { i with was_mutated := true }) ∧
        (∀ i, r.1.inputs.get? r.2 = some i → i.was_mutated = true) ∧
        r.2 ∈ q.pending_found_re ∧
        r.1.pending_favored = q.pending_favored ∧
        r.1.pending_none_favored = q.pending_none_favored ∧
        r.1.favored = q.favored ∧ r.1.found_re = q.found_re ∧
        r.1.self_contained = q.self_contained ∧ r.1.score_sheet = q.score_sheet ∧
        r.1.input_depth = q.input_depth) ∧
    (¬(q.pending_favored ≠ [] ∧ o.roll1 ≤ 90) →
      ¬(q.pending_found_re ≠ [] ∧ o.roll2 ≤ 60) →
      (q.pending_none_favored ≠ [] ∧ o.roll3 < 30) →
      ∀ r : Queue × ℕ, Queue.select_idx o true q = some r →
        r.1.pending_none_favored = q.pending_none_favored.erase r.2 ∧
        r.1.inputs = modifyAt q.inputs r.2 (fun i => { i with was_mutated := true }) ∧
        (∀ i, r.1.inputs.get? r.2 = some i → i.was_mutated = true) ∧
        r.2 ∈ q.pending_none_favored ∧
        r.1.pending_favored = q.pending_favored ∧
        r.1.pending_found_re = q.pending_found_re ∧
        r.1.favored = q.favored ∧ r.1.found_re = q.found_re ∧
        r.1.self_contained = q.self_contained ∧ r.1.score_sheet = q.score_sheet ∧
        r.1.input_depth = q.input_depth) ∧
    (∀ r : Queue × ℕ, Queue.select_idx o false q = some r →
        r.1.inputs = q.inputs ∧
        r.1.pending_favored = q.pending_favored ∧
        r.1.pending_found_re = q.pending_found_re ∧
        r.1.pending_none_favored = q.pending_none_favored ∧
        r.1.favored = q.favored ∧ r.1.found_re = q.found_re ∧
        r.1.self_contained = q.self_contained ∧ r.1.score_sheet = q.score_sheet ∧
        r.1.input_depth = q.input_depth) := by
  refine ⟨?_, ?_, ?_, ?_⟩
  · intro hg r hr
    unfold Queue.select_idx at hr
    rw [if_pos hg] at hr
    rcases hm : Queue.choose_weighted o.pick1 q.pending_favored q.inputs true
      with _ | ⟨f, inp2, idx⟩
    · rw [hm] at hr
      simp at hr
    · rw [hm] at hr
      obtain ⟨hf, hi, hmem⟩ := choose_weighted_true hm
      cases hr
      refine ⟨hf, hi, ?_, hmem, rfl, rfl, rfl, rfl, rfl, rfl, rfl⟩
      intro i h
      have h2 : inp2.get? idx = some i := h
      rw [hi] at h2
      exact modified_was_mutated h2
  · intro hn1 hg r hr
    unfold Queue.select_idx at hr
    rw [if_neg hn1, if_pos hg] at hr
    rcases hm : Queue.choose_weighted o.pick2 q.pending_found_re q.inputs true
      with _ | ⟨f, inp2, idx⟩
    · rw [hm] at hr
      simp at hr
    · rw [hm] at hr
      obtain ⟨hf, hi, hmem⟩ := choose_weighted_true hm
      cases hr
      refine ⟨hf, hi, ?_, hmem, rfl, rfl, rfl, rfl, rfl, rfl, rfl⟩
      intro i h
      have h2 : inp2.get? idx = some i := h
      rw [hi] at h2
      exact modified_was_mutated h2
  · intro hn1 hn2 hg r hr
    unfold Queue.select_idx at hr
    rw [if_neg hn1, if_neg hn2, if_pos hg] at hr
    rcases hm : Queue.choose_weighted o.pick3 q.pending_none_favored q.inputs true
      with _ | ⟨f, inp2, idx⟩
    · rw [hm] at hr
      simp at hr
    · rw [hm] at hr
      obtain ⟨hf, hi, hmem⟩ := choose_weighted_true hm
      cases hr
      refine ⟨hf, hi, ?_, hmem, rfl, rfl, rfl, rfl, rfl, rfl, rfl⟩
      intro i h
      have h2 : inp2.get? idx = some i := h
      rw [hi] at h2
      exact modified_was_mutated h2
  · intro r hr
    unfold Queue.select_idx at hr
    split at hr
    · rcases hm : Queue.choose_weighted o.pick1 q.pending_favored q.inputs false
        with _ | ⟨f, inp2, idx⟩
      · rw [hm] at hr
        simp at hr
      · rw [hm] at hr
        obtain ⟨hf, hi, -⟩ := choose_weighted_false hm
        cases hr
        exact ⟨hi, hf, rfl, rfl, rfl, rfl, rfl, rfl, rfl⟩
    · split at hr
      · rcases hm : Queue.choose_weighted o.pick2 q.pending_found_re q.inputs false
          with _ | ⟨f, inp2, idx⟩
        · rw [hm] at hr
          simp at hr
        · rw [hm] at hr
          obtain ⟨hf, hi, -⟩ := choose_weighted_false hm
          cases hr
          exact ⟨hi, rfl, hf, rfl, rfl, rfl, rfl, rfl, rfl⟩
      · split at hr
        · rcases hm : Queue.choose_weighted o.pick3 q.pending_none_favored q.inputs false
            with _ | ⟨f, inp2, idx⟩
          · rw [hm] at hr
            simp at hr
          · rw [hm] at hr
            obtain ⟨hf, hi, -⟩ := choose_weighted_false hm
            cases hr
            exact ⟨hi, rfl, rfl, hf, rfl, rfl, rfl, rfl, rfl⟩
        · split at hr
          · rcases hc : chooseUniform o.pick4 q.favored with _ | i
            · rw [hc] at hr
              simp at hr
            · rw [hc] at hr
              cases hr
              exact ⟨rfl, rfl, rfl, rfl, rfl, rfl, rfl, rfl, rfl⟩
          · split at hr
            · rcases hc : chooseUniform o.pick5 q.found_re with _ | i
              · rw [hc] at hr
                simp at hr
              · rw [hc] at hr
                cases hr
                exact ⟨rfl, rfl, rfl, rfl, rfl, rfl, rfl, rfl, rfl⟩
            · split at hr
              · rcases hc : chooseUniform o.pick6 q.self_contained with _ | i
                · rw [hc] at hr
                  simp at hr
                · rw [hc] at hr
                  cases hr
                  exact ⟨rfl, rfl, rfl, rfl, rfl, rfl, rfl, rfl, rfl⟩
              · split at hr
                · rcases hc : chooseWeighted o.pick7 (tier7Window q o.start7)
                      (fun p => p.1) with _ | p
                  · rw [hc] at hr
                    exact select_fallback_frame hr
                  · rw [hc] at hr
                    cases hr
                    exact ⟨rfl, rfl, rfl, rfl, rfl, rfl, rfl, rfl, rfl⟩
                · split at hr
                  · rcases hl : q.input_depth.getLast? with _ | b
                    · rw [hl] at hr
                      simp at hr
                    · rw [hl] at hr
                      have hr2 : Option.map (fun i => (q, i)) (chooseUniform o.pick8 b)
                          = some r := hr
                      rcases hc : chooseUniform o.pick8 b with _ | i
                      · rw [hc] at hr2
                        simp at hr2
                      · rw [hc] at hr2
                        cases hr2
                        exact ⟨rfl, rfl, rfl, rfl, rfl, rfl, rfl, rfl, rfl⟩
                  · exact select_fallback_frame hr

/-- Witness for C6: the pending-favored conjunct and the non-consuming
frame conjunct applied at a concrete one-input queue. -/
theorem select_idx_pending_consumption_witness :
    (wQueueP.pending_favored ≠ [] ∧ wOracleZ.roll1 ≤ 90) ∧
    wSelResQ.pending_favored = wQueueP.pending_favored.erase 0 ∧
    ({ wQueue with current := 0 } : Queue).inputs = wQueue.inputs :=
  ⟨⟨by decide, by decide⟩,
   ((select_idx_pending_consumption wOracleZ wQueueP).1 ⟨by decide, by decide⟩
      (wSelResQ, 0) rfl).1,
   ((select_idx_pending_consumption wOracle wQueue).2.2.2
      ({ wQueue with current := 0 }, 0) rfl).1⟩

end Claim6

section Claim5

/-- C5: the culling walk's discard step, for every coin oracle, retains
an input exactly when it is favored in this pass, or longer than 2, or
its own independent coin (the fair random bool drawn at its walk
position) says keep — so a non-favored input of length at most 2 is
discarded exactly when its own coin fires, with probability one half —
and every retained input carries age incremented by exactly one (with
its recomputed new coverage and favored mark). -/
theorem culling_discard_policy (coins : ℕ → Bool) (k : ℕ) (cov : Finset ℕ)
    (l : List Input) :
    cullLoop coins k cov l = cullRetainSpec coins k cov l :=
  cullLoop_eq_retain coins l k cov

end Claim5

section Claim3

/-- Any walked input that passes the retention test appears in the
culling walk's output with exactly its prefix-difference coverage. -/
theorem cullLoop_mem_of_retained (coins : ℕ → Bool) (l : List Input) (j : ℕ)
    (i : Input) (hj : l.get? j = some i)
    (hret : (decide (inputBranches i \ prefixBr l j ≠ ∅) || decide (2 < i.len) ||
      !coins j) = true) :
    { i with new_cov := inputBranches i \ prefixBr l j,
             favored := decide (inputBranches i \ prefixBr l j ≠ ∅),
             age := i.age + 1 } ∈ cullLoop coins 0 ∅ l := by
  rw [cullLoop_eq_retain]
  unfold cullRetainSpec
  rw [List.mem_map]
  refine ⟨(j, (i, decide (inputBranches i \ prefixBr l j ≠ ∅),
    inputBranches i \ prefixBr l j)), ?_, rfl⟩
  rw [List.mem_filter]
  constructor
  · apply List.get?_mem
    rw [List.get?_enumFrom, cullWalkSpec_get? l ∅ j hj, Finset.empty_union]
    simp
  · simpa using hret

/-- C3: culling sorts the corpus descending by (len, score) and walks it
with an empty ownership set, so every retained input's recorded
new-coverage set is exactly its branches minus everything earlier-walked
inputs contributed, favored exactly when non-empty; concretely, for
input A covering branches 1,2 walked before B covering 2,3, post-culling
A's new coverage is exactly the set of 1 and 2, B's exactly the set
holding 3, and both are favored. -/
theorem culling_coverage_merge :
    (∀ (coins : ℕ → Bool) (q : Queue) (j : ℕ) (i : Input),
      (sortInputs q.inputs).get? j = some i →
      (decide (inputBranches i \ prefixBr (sortInputs q.inputs) j ≠ ∅) ||
        decide (2 < i.len) || !coins j) = true →
      { i with new_cov := inputBranches i \ prefixBr (sortInputs q.inputs) j,
               favored := decide (inputBranches i \ prefixBr (sortInputs q.inputs) j ≠ ∅),
               age := i.age + 1 } ∈ cullLoop coins 0 ∅ (sortInputs q.inputs)) ∧
    ((Queue.culling wDD wSC wCoinsT id wQueueAB).isSome = true ∧
      ((Queue.culling wDD wSC wCoinsT id wQueueAB).map
        (fun q => q.inputs.map (fun i => (i.new_cov, i.favored)))).getD []
      = [({1, 2}, true), ({3}, true)]) := by
  refine ⟨?_, by decide, by decide⟩
  intro coins q j i hj hret
  exact cullLoop_mem_of_retained coins (sortInputs q.inputs) j i hj hret

/-- Witness for C3's general conjunct at the concrete A/B queue. -/
theorem culling_coverage_merge_witness :
    ((sortInputs wQueueAB.inputs).get? 0 = some wInputA) ∧
    ({ wInputA with
        new_cov := inputBranches wInputA \ prefixBr (sortInputs wQueueAB.inputs) 0,
        favored := decide (inputBranches wInputA \ prefixBr (sortInputs wQueueAB.inputs) 0 ≠ ∅),
        age := wInputA.age + 1 } ∈ cullLoop wCoinsT 0 ∅ (sortInputs wQueueAB.inputs)) :=
  ⟨by decide,
   culling_coverage_merge.1 wCoinsT wQueueAB 0 wInputA (by decide) (by decide)⟩

end Claim3

section Claim4

/-- C4: should_culling fires exactly when the corpus grew by more than
culling_threshold since the last culling or the elapsed wall-clock time
exceeds culling_duration; concretely, on a fresh queue with threshold k
and no time trigger, the first k appends run without culling and the
(k+1)-th append — the next append after k culling-free ones — triggers
exactly one culling. -/
theorem culling_trigger (dd : (ℕ → ℕ) → Input → ℕ) (sc : Avgs → Input → ℕ)
    (coins : ℕ → Bool) (shuffle : List Input → List Input)
    (k : ℕ) (inps : List Input) (q0 : Queue)
    (hq0 : q0 = { Queue.new 0 none with culling_threshold := k })
    (hlen : inps.length = k + 1) :
    (∀ (e : ℕ) (q : Queue), Queue.should_culling q e = true ↔
        ((q.last_num < q.inputs.length ∧
          q.culling_threshold < q.inputs.length - q.last_num) ∨
         q.culling_duration < e)) ∧
    (∀ j, j ≤ k → Queue.appendN dd sc coins shuffle 0 q0 (inps.take j)
        = some (Queue.iterCore dd sc q0 (inps.take j))) ∧
    (Queue.appendN dd sc coins shuffle 0 q0 inps
        = Queue.culling dd sc coins shuffle (Queue.iterCore dd sc q0 inps)) := by
  have hfields : q0.inputs.length = 0 ∧ q0.last_num = 0 ∧
      q0.culling_threshold = k ∧ q0.culling_duration = 15 * 60 := by
    rw [hq0]
    exact ⟨rfl, rfl, rfl, rfl⟩
  obtain ⟨hf1, hf2, hf3, hf4⟩ := hfields
  refine ⟨?_, ?_, ?_⟩
  · intro e q
    unfold Queue.should_culling
    by_cases h1 : q.last_num < q.inputs.length <;>
      by_cases h2 : q.culling_threshold < q.inputs.length - q.last_num <;>
        by_cases h3 : q.culling_duration < e <;>
          simp [h1, h2, h3]
  · intro j hj
    apply appendN_no_cull
    rw [hf1, hf2, hf3, List.length_take, hlen]
    omega
  · have hsplit : inps = inps.take k ++ inps.drop k := (List.take_append_drop k inps).symm
    have hdlen : (inps.drop k).length = 1 := by
      rw [List.length_drop, hlen]
      omega
    obtain ⟨a, ha⟩ : ∃ a, inps.drop k = [a] := by
      rcases hd : inps.drop k with _ | ⟨a, rest⟩
      · rw [hd] at hdlen
        simp at hdlen
      · rw [hd] at hdlen
        simp at hdlen
        exact ⟨a, by rw [hdlen]⟩
    have htake : Queue.appendN dd sc coins shuffle 0 q0 (inps.take k)
        = some (Queue.iterCore dd sc q0 (inps.take k)) := by
      apply appendN_no_cull
      rw [hf1, hf2, hf3, List.length_take, hlen]
      omega
    obtain ⟨i1, i2, i3, i4⟩ := iterCore_fields dd sc (inps.take k) q0
    have hklen : (Queue.iterCore dd sc q0 (inps.take k)).inputs.length = k := by
      rw [i1, hf1, List.length_take, hlen]
      omega
    have hklast : (Queue.iterCore dd sc q0 (inps.take k)).last_num = 0 := by
      rw [i2, hf2]
    have hkthr : (Queue.iterCore dd sc q0 (inps.take k)).culling_threshold = k := by
      rw [i3, hf3]
    obtain ⟨g1, g2, g3, g4⟩ :=
      appendCore_fields dd sc (Queue.iterCore dd sc q0 (inps.take k)) a
    have hsc : Queue.should_culling
        (Queue.appendCore dd sc (Queue.iterCore dd sc q0 (inps.take k)) a) 0 = true := by
      unfold Queue.should_culling
      rw [g1, g2, g3, hklen, hklast, hkthr]
      simp
    have happ : Queue.append dd sc coins shuffle 0
          (Queue.iterCore dd sc q0 (inps.take k)) a
        = Queue.culling dd sc coins shuffle
            (Queue.appendCore dd sc (Queue.iterCore dd sc q0 (inps.take k)) a) := by
      show (if Queue.should_culling
              (Queue.appendCore dd sc (Queue.iterCore dd sc q0 (inps.take k)) a) 0 = true
          then Queue.culling dd sc coins shuffle
            (Queue.appendCore dd sc (Queue.iterCore dd sc q0 (inps.take k)) a)
          else some (Queue.appendCore dd sc (Queue.iterCore dd sc q0 (inps.take k)) a))
        = Queue.culling dd sc coins shuffle
            (Queue.appendCore dd sc (Queue.iterCore dd sc q0 (inps.take k)) a)
      rw [hsc]
      simp
    conv_lhs => rw [← List.take_append_drop k inps, ha]
    conv_rhs => rw [← List.take_append_drop k inps, ha]
    unfold Queue.appendN
    rw [List.foldlM_append]
    unfold Queue.appendN at htake
    rw [htake]
    show (List.foldlM (fun q i => Queue.append dd sc coins shuffle 0 q i)
        (Queue.iterCore dd sc q0 (inps.take k)) [a] : Option Queue) = _
    rw [List.foldlM_cons, happ]
    rw [show Queue.iterCore dd sc q0 (inps.take k ++ [a])
        = Queue.appendCore dd sc (Queue.iterCore dd sc q0 (inps.take k)) a by
      unfold Queue.iterCore
      rw [List.foldl_append]
      rfl]
    show (Queue.culling dd sc coins shuffle
        (Queue.appendCore dd sc (Queue.iterCore dd sc q0 (inps.take k)) a) >>=
          fun b => List.foldlM (fun q i => Queue.append dd sc coins shuffle 0 q i) b []) = _
    rcases Queue.culling dd sc coins shuffle
        (Queue.appendCore dd sc (Queue.iterCore dd sc q0 (inps.take k)) a) with _ | qres
    · rfl
    · rfl

/-- Witness for C4 at threshold zero: the single (k+1 = 1st) append of a
fresh zero-threshold queue is exactly one culling of the post-push
state. -/
theorem culling_trigger_witness :
    ([wInput].length = 0 + 1) ∧
    (Queue.appendN wDD wSC wCoinsT id 0 wQ4 [wInput]
      = Queue.culling wDD wSC wCoinsT id (Queue.iterCore wDD wSC wQ4 [wInput])) :=
  ⟨by decide,
   (culling_trigger wDD wSC wCoinsT id 0 [wInput] wQ4 rfl (by decide)).2.2⟩

end Claim4

section Claim7

/-- C7 counterexample: on a zero-threshold queue the very append that
stores the input triggers culling, which rebuilds every side-set from
the recomputed flags — here an input appended with favored = false ends
up in the favored set (and not in pending_none_favored), against the
claim's flag-implied classification. -/
theorem append_culling_reclassifies :
    ((Queue.append wDD wSC wCoinsT id 0 wQ4 wInput).map
        (fun q => q.favored)).getD [] = [0] ∧
    ((Queue.append wDD wSC wCoinsT id 0 wQ4 wInput).map
        (fun q => q.pending_none_favored)).getD [99] = [] ∧
    wInput.favored = false ∧ wInput.was_mutated = false :=
  ⟨by decide, by decide, by decide, by decide⟩

/-- C7 amended: provided the append does not trigger culling (the
post-push state passes neither culling trigger), append stores the
prepared input at index n = old length: the length grows by exactly one
and index n enters exactly the side-sets implied by the input's flags —
favored (plus pending_favored when unmutated), else pending_none_favored
when unmutated; found_re (plus pending_found_re when unmutated);
self_contained regardless; the (score, n) pair joins the score sheet
with the recomputed score; and n lands in the depth bucket after the
bucket list grows to cover the input's depth. -/
theorem append_monotone (dd : (ℕ → ℕ) → Input → ℕ) (sc : Avgs → Input → ℕ)
    (coins : ℕ → Bool) (shuffle : List Input → List Input)
    (e : ℕ) (q : Queue) (inp : Input)
    (h : Queue.should_culling (Queue.appendCore dd sc q inp) e = false) :
    Queue.append dd sc coins shuffle e q inp = some (Queue.appendCore dd sc q inp) ∧
    (Queue.appendCore dd sc q inp).inputs.length = q.inputs.length + 1 ∧
    (Queue.appendCore dd sc q inp).favored
      = (if inp.favored then q.favored ++ [q.inputs.length] else q.favored) ∧
    (Queue.appendCore dd sc q inp).pending_favored
      = (if inp.favored && !inp.was_mutated then q.pending_favored ++ [q.inputs.length]
         else q.pending_favored) ∧
    (Queue.appendCore dd sc q inp).pending_none_favored
      = (if !inp.favored && !inp.was_mutated
         then q.pending_none_favored ++ [q.inputs.length] else q.pending_none_favored) ∧
    (Queue.appendCore dd sc q inp).found_re
      = (if inp.found_new_re then q.found_re ++ [q.inputs.length] else q.found_re) ∧
    (Queue.appendCore dd sc q inp).pending_found_re
      = (if inp.found_new_re && !inp.was_mutated
         then q.pending_found_re ++ [q.inputs.length] else q.pending_found_re) ∧
    (Queue.appendCore dd sc q inp).self_contained
      = (if inp.self_contained then q.self_contained ++ [q.inputs.length]
         else q.self_contained) ∧
    (Queue.appendCore dd sc q inp).score_sheet
      = q.score_sheet ++ [((prepInput dd sc q inp).1.score, q.inputs.length)] ∧
    (Queue.appendCore dd sc q inp).input_depth
      = modifyAt (growDepth q.input_depth inp.depth) inp.depth
          (fun b => b ++ [q.inputs.length]) ∧
    (Queue.appendCore dd sc q inp).input_depth.length
      = max q.input_depth.length (inp.depth + 1) := by
  refine ⟨?_, ?_, ?_, ?_, ?_, ?_, ?_, ?_, ?_, ?_, ?_⟩
  · show (if Queue.should_culling (Queue.appendCore dd sc q inp) e = true
        then Queue.culling dd sc coins shuffle (Queue.appendCore dd sc q inp)
        else some (Queue.appendCore dd sc q inp)) = some (Queue.appendCore dd sc q inp)
    rw [h]
    simp
  all_goals unfold Queue.appendCore
  all_goals rw [append_inner_eq]
  all_goals simp [prepInput, modifyAt_length, growDepth]
  all_goals omega

/-- Witness for C7's amended claim: a non-triggering append on a fresh
128-threshold queue is exactly the culling-free core. -/
theorem append_monotone_witness :
    (Queue.should_culling (Queue.appendCore wDD wSC wQueue wInput) 0 = false) ∧
    Queue.append wDD wSC wCoinsT id 0 wQueue wInput
      = some (Queue.appendCore wDD wSC wQueue wInput) :=
  ⟨by decide,
   (append_monotone wDD wSC wCoinsT id 0 wQueue wInput (by decide)).1⟩

end Claim7

section Claim10

/-- C10 counterexample: a non-empty queue whose only input covers no
branch and has length 1 can lose every input to the random discard (all
coins fire), and culling then divides the score total by the empty new
corpus size — a panic, modelled as none. -/
theorem culling_empty_panics :
    wQueueSmall.inputs ≠ [] ∧
    Queue.culling wDD wSC wCoinsT id wQueueSmall = none :=
  ⟨by decide, rfl⟩

/-- C10 amended: culling installs a successor queue (no panic) for every
coin outcome provided some input is longer than 2 or records at least
one branch — then at least one input survives every discard outcome, so
the final average-score division is well-defined; if every input is
branch-free with length at most 2, all of them can be discarded and the
division panics. -/
theorem culling_retains_some (dd : (ℕ → ℕ) → Input → ℕ) (sc : Avgs → Input → ℕ)
    (coins : ℕ → Bool) (shuffle : List Input → List Input) (q : Queue)
    (hshuf : ∀ l : List Input, (shuffle l).Perm l)
    (hwit : ∃ i ∈ q.inputs, 2 < i.len ∨ inputBranches i ≠ ∅) :
    (Queue.culling dd sc coins shuffle q).isSome = true := by
  have hretain : cullRetained coins q ≠ [] := by
    apply cullLoop_ne_nil
    obtain ⟨i, hi, hp⟩ := hwit
    refine ⟨i, ((sortInputs_perm q.inputs).mem_iff).mpr hi, ?_⟩
    rcases hp with hp | hp
    · exact Or.inl hp
    · refine Or.inr ?_
      rw [Finset.subset_empty]
      exact hp
  have hprep : (cullPrepared dd coins shuffle q).length
      = (cullRetained coins q).length := by
    unfold cullPrepared ddAvgLoop
    rw [ddAvgLoop_snd_acc]
    rw [List.nil_append, List.length_map]
    unfold cullShuffled
    exact (hshuf (cullRetained coins q)).length_eq
  have hfin : (cullFinal dd sc coins shuffle q).1.inputs.length
      = (cullPrepared dd coins shuffle q).length := by
    unfold cullFinal cullAppendLoop
    rw [cullAppendLoop_inputs]
    simp [cullBaseQueue, Queue.new]
  have hlen0 : ¬ (cullFinal dd sc coins shuffle q).1.inputs.length = 0 := by
    rw [hfin, hprep]
    intro hc
    exact hretain (List.length_eq_zero.mp hc)
  unfold Queue.culling
  rw [if_neg hlen0]
  rfl

/-- Witness for the amended C10 at the concrete A/B queue. -/
theorem culling_retains_some_witness :
    (∃ i ∈ wQueueAB.inputs, 2 < i.len ∨ inputBranches i ≠ ∅) ∧
    (Queue.culling wDD wSC wCoinsT id wQueueAB).isSome = true :=
  ⟨by decide,
   culling_retains_some wDD wSC wCoinsT id wQueueAB (fun l => List.Perm.refl l)
     (by decide)⟩

end Claim10

section Claim8

/-- C8: after a successful culling, each of the nine rolling averages is
the integer ceiling of the arithmetic mean of its metric over the
retained inputs, where every retained input's distinct_degree has first
been recomputed from the call-count table rebuilt from the retained set
(first conjunct); the f64 division the source uses is exact for these
integer sums below 2^53, so ceilDiv is its value. -/
theorem culling_averages (dd : (ℕ → ℕ) → Input → ℕ) (sc : Avgs → Input → ℕ)
    (coins : ℕ → Bool) (shuffle : List Input → List Input) (q : Queue)
    (h : (Queue.culling dd sc coins shuffle q).isSome = true) :
    cullPrepared dd coins shuffle q
      = (cullShuffled coins shuffle q).map
          (fun i => { i with distinct_degree := dd (cullCallCnt coins shuffle q) i }) ∧
    ((Queue.culling dd sc coins shuffle q).map
        (fun q' => q'.avgs.gaining_rate)).getD 0
      = ceilDiv ((cullPrepared dd coins shuffle q).map (fun i => i.gaining_rate)).sum
          (cullPrepared dd coins shuffle q).length ∧
    ((Queue.culling dd sc coins shuffle q).map
        (fun q' => q'.avgs.distinct_degree)).getD 0
      = ceilDiv ((cullPrepared dd coins shuffle q).map (fun i => i.distinct_degree)).sum
          (cullPrepared dd coins shuffle q).length ∧
    ((Queue.culling dd sc coins shuffle q).map (fun q' => q'.avgs.age)).getD 0
      = ceilDiv ((cullPrepared dd coins shuffle q).map (fun i => i.age)).sum
          (cullPrepared dd coins shuffle q).length ∧
    ((Queue.culling dd sc coins shuffle q).map (fun q' => q'.avgs.sz)).getD 0
      = ceilDiv ((cullPrepared dd coins shuffle q).map (fun i => i.sz)).sum
          (cullPrepared dd coins shuffle q).length ∧
    ((Queue.culling dd sc coins shuffle q).map (fun q' => q'.avgs.depth)).getD 0
      = ceilDiv ((cullPrepared dd coins shuffle q).map (fun i => i.depth)).sum
          (cullPrepared dd coins shuffle q).length ∧
    ((Queue.culling dd sc coins shuffle q).map (fun q' => q'.avgs.len)).getD 0
      = ceilDiv ((cullPrepared dd coins shuffle q).map (fun i => i.len)).sum
          (cullPrepared dd coins shuffle q).length ∧
    ((Queue.culling dd sc coins shuffle q).map (fun q' => q'.avgs.exec_tm)).getD 0
      = ceilDiv ((cullPrepared dd coins shuffle q).map (fun i => i.exec_tm)).sum
          (cullPrepared dd coins shuffle q).length ∧
    ((Queue.culling dd sc coins shuffle q).map (fun q' => q'.avgs.res_cnt)).getD 0
      = ceilDiv ((cullPrepared dd coins shuffle q).map (fun i => i.res_cnt)).sum
          (cullPrepared dd coins shuffle q).length ∧
    ((Queue.culling dd sc coins shuffle q).map (fun q' => q'.avgs.new_cov)).getD 0
      = ceilDiv ((cullPrepared dd coins shuffle q).map (fun i => i.new_cov.card)).sum
          (cullPrepared dd coins shuffle q).length := by
  have hprep_eq : cullPrepared dd coins shuffle q
      = (cullShuffled coins shuffle q).map
          (fun i => { i with distinct_degree := dd (cullCallCnt coins shuffle q) i }) := by
    unfold cullPrepared ddAvgLoop
    rw [ddAvgLoop_snd_acc]
    simp
  have hlen0 : ¬ (cullFinal dd sc coins shuffle q).1.inputs.length = 0 := by
    intro hc
    unfold Queue.culling at h
    rw [if_pos hc] at h
    simp at h
  refine ⟨hprep_eq, ?_, ?_, ?_, ?_, ?_, ?_, ?_, ?_, ?_⟩
  all_goals unfold Queue.culling
  all_goals rw [if_neg hlen0]
  all_goals simp only [Option.map_some', Option.getD_some]
  · show ceilDiv (cullSums dd coins shuffle q).gaining_rate
        (cullPrepared dd coins shuffle q).length = _
    unfold cullSums ddAvgLoop
    rw [ddAvgLoop_fst_acc, hprep_eq, List.map_map]
    simp only [Avgs.zero, List.length_map, Nat.zero_add]
    rfl
  · show ceilDiv (cullSums dd coins shuffle q).distinct_degree
        (cullPrepared dd coins shuffle q).length = _
    unfold cullSums ddAvgLoop
    rw [ddAvgLoop_fst_acc, hprep_eq, List.map_map]
    simp only [Avgs.zero, List.length_map, Nat.zero_add]
    rfl
  · show ceilDiv (cullSums dd coins shuffle q).age
        (cullPrepared dd coins shuffle q).length = _
    unfold cullSums ddAvgLoop
    rw [ddAvgLoop_fst_acc, hprep_eq, List.map_map]
    simp only [Avgs.zero, List.length_map, Nat.zero_add]
    rfl
  · show ceilDiv (cullSums dd coins shuffle q).sz
        (cullPrepared dd coins shuffle q).length = _
    unfold cullSums ddAvgLoop
    rw [ddAvgLoop_fst_acc, hprep_eq, List.map_map]
    simp only [Avgs.zero, List.length_map, Nat.zero_add]
    rfl
  · show ceilDiv (cullSums dd coins shuffle q).depth
        (cullPrepared dd coins shuffle q).length = _
    unfold cullSums ddAvgLoop
    rw [ddAvgLoop_fst_acc, hprep_eq, List.map_map]
    simp only [Avgs.zero, List.length_map, Nat.zero_add]
    rfl
  · show ceilDiv (cullSums dd coins shuffle q).len
        (cullPrepared dd coins shuffle q).length = _
    unfold cullSums ddAvgLoop
    rw [ddAvgLoop_fst_acc, hprep_eq, List.map_map]
    simp only [Avgs.zero, List.length_map, Nat.zero_add]
    rfl
  · show ceilDiv (cullSums dd coins shuffle q).exec_tm
        (cullPrepared dd coins shuffle q).length = _
    unfold cullSums ddAvgLoop
    rw [ddAvgLoop_fst_acc, hprep_eq, List.map_map]
    simp only [Avgs.zero, List.length_map, Nat.zero_add]
    rfl
  · show ceilDiv (cullSums dd coins shuffle q).res_cnt
        (cullPrepared dd coins shuffle q).length = _
    unfold cullSums ddAvgLoop
    rw [ddAvgLoop_fst_acc, hprep_eq, List.map_map]
    simp only [Avgs.zero, List.length_map, Nat.zero_add]
    rfl
  · show ceilDiv (cullSums dd coins shuffle q).new_cov
        (cullPrepared dd coins shuffle q).length = _
    unfold cullSums ddAvgLoop
    rw [ddAvgLoop_fst_acc, hprep_eq, List.map_map]
    simp only [Avgs.zero, List.length_map, Nat.zero_add]
    rfl

/-- Witness for C8 at the concrete A/B queue. -/
theorem culling_averages_witness :
    ((Queue.culling wDD wSC wCoinsT id wQueueAB).isSome = true) ∧
    ((Queue.culling wDD wSC wCoinsT id wQueueAB).map
        (fun q' => q'.avgs.gaining_rate)).getD 0
      = ceilDiv ((cullPrepared wDD wCoinsT id wQueueAB).map
          (fun i => i.gaining_rate)).sum
          (cullPrepared wDD wCoinsT id wQueueAB).length :=
  ⟨by decide,
   (culling_averages wDD wSC wCoinsT id wQueueAB (by decide)).2.1⟩

end Claim8

section Claim9

/-- C9: with_workdir returns the explicit not-implemented error exactly
when the on-disk directory work_dir/queue-id exists (no queue is
constructed), and otherwise a fresh empty queue persisting to that
directory; load never succeeds. -/
theorem with_workdir_load_spec :
    (∀ (ex : String → Bool) (id : ℕ) (wd : String),
      Queue.with_workdir ex id wd =
        if ex (wd ++ "/queue-" ++ toString id) then
          Except.error ("In-place resume " ++ "not implemented" ++
            " for queue, please remove old data " ++ wd ++ " first")
        else
          Except.ok (Queue.new id (some (wd ++ "/queue-" ++ toString id)))) ∧
    (∀ (id : ℕ) (qd : Option String), (Queue.new id qd).inputs = []) ∧
    (∀ (id : ℕ) (f : String),
      Queue.load id f =
        Except.error ("In-place resume " ++ "not implemented" ++
          " for queue, please remove old data " ++ f ++ " first")) :=
  ⟨fun _ _ _ => rfl, fun _ _ => rfl, fun _ _ => rfl⟩

end Claim9

end Healer
